import Mathlib

/-!
Verification of the folder-tree core of the vido-react-ts repository.

The development shallowly embeds the functions of src/utils/fileUtils.ts
(buildCompleteFolderTree, extractNumberFromFileName, sortFilesByNumber,
searchVideos, getAllVideosFromFolder) and of the FileExplorer component
(handleSearch, simplifyFolderTree, restoreFolderTree, loadFolderFromCache).

Modelling conventions:
- JS strings are Lean String values; the JS methods used by the code
  (split by slash, trim, toLowerCase, includes, localeCompare) are modelled
  as executable functions on the underlying character lists.  localeCompare
  is approximated by code-point lexicographic comparison, and toLowerCase by
  per-character lowering, which agree with JS on the ASCII range.
- The opaque browser File handle is modelled as Option Nat: an entry built
  from a live selection carries some id, an entry restored from a snapshot
  carries none (the File object is dropped by JSON serialization).
- JS Array.prototype.sort with a consistent comparator is a stable sort;
  it is modelled by List.mergeSort, the stable sort of the Lean library.
- JS numbers for file sizes and parsed integers are modelled as Nat
  (the repository never relies on fractional or negative values there).
-/

set_option maxHeartbeats 1000000

/-! ## Character-list models of the JS string methods -/

/-- Model of the JS split("/"): "".split is [""], separators delimit
    possibly empty parts. -/
def splitSlash : List Char → List (List Char)
  | [] => [[]]
  | c :: cs =>
    match splitSlash cs with
    | [] => [[c]]
    | h :: t => if c = '/' then [] :: h :: t else (c :: h) :: t

/-- path.split("/") on strings. -/
def jsSplitSlash (s : String) : List String :=
  (splitSlash s.data).map String.mk

/-- One step of the path accumulation in the tree builder:
    currentPath ? currentPath + "/" + folderName : folderName. -/
def joinPathAcc (currentPath folderName : String) : String :=
  if currentPath = "" then folderName else currentPath ++ "/" ++ folderName

/-- The folder-map key under which a file with the given path is attached:
    the JS fold of the folder parts of the path (the split parts minus the
    final file name), starting from the empty current path. -/
def attachKey (path : String) : String :=
  ((jsSplitSlash path).dropLast).foldl joinPathAcc ""

/-- Slash join of a list of segments (right inverse of jsSplitSlash). -/
def joinSlash : List String → String
  | [] => ""
  | [s] => s
  | s :: rest => s ++ "/" ++ joinSlash rest

/-- The path with its final slash-separated segment removed, the notion used
    by the spec to describe the containing folder of a file. -/
def parentPathOf (path : String) : String :=
  joinSlash ((jsSplitSlash path).dropLast)

/-- A path is normalized when it has no folder part at all or its first
    folder segment is nonempty (in particular it does not start with "/"). -/
def goodPath (path : String) : Bool :=
  match (jsSplitSlash path).dropLast with
  | [] => true
  | h :: _ => h ≠ ""

/-- Model of the JS trim(): remove leading and trailing whitespace. -/
def jsTrim (s : String) : String :=
  String.mk (((s.data.dropWhile Char.isWhitespace).reverse.dropWhile Char.isWhitespace).reverse)

/-- Model of the JS toLowerCase() (per-character lowering). -/
def jsToLower (s : String) : String :=
  String.mk (s.data.map Char.toLower)

/-- Boolean prefix test on character lists. -/
def isPrefixB : List Char → List Char → Bool
  | [], _ => true
  | _ :: _, [] => false
  | a :: as, b :: bs => a == b && isPrefixB as bs

/-- Boolean contiguous-substring test, modelling the JS includes(). -/
def isInfixB (pat : List Char) : List Char → Bool
  | [] => isPrefixB pat []
  | l@(_ :: t) => isPrefixB pat l || isInfixB pat t

/-- Code-point three-way comparison of character lists, the model of the JS
    localeCompare (negative: first sorts before; positive: after). -/
def cmpChars : List Char → List Char → Int
  | [], [] => 0
  | [], _ :: _ => -1
  | _ :: _, [] => 1
  | a :: as, b :: bs =>
    if a.toNat < b.toNat then -1
    else if b.toNat < a.toNat then 1
    else cmpChars as bs

/-- a.localeCompare(b), approximated by code-point comparison. -/
def localeCompare (a b : String) : Int :=
  cmpChars a.data b.data

/-- parseInt on a run of decimal digits. -/
def digitsToNat (ds : List Char) : Nat :=
  ds.foldl (fun n c => n * 10 + (c.toNat - 48)) 0

/-! ## extractNumberFromFileName (fileUtils.ts lines 277-295)

The JS function tries, in order, the regexes 第(\d+)节, 第(\d+)章, 第(\d+)课,
^(\d+), (\d+) over the whole file name and returns the integer of the first
pattern that matches anywhere (leftmost match, greedy digit run); when none
matches it returns Infinity, modelled here as none. -/

/-- Leftmost match of the labelled pattern: the character 第, then a nonempty
    maximal digit run, then the given closing character (节, 章 or 课). -/
def matchLabelled (close : Char) : List Char → Option Nat
  | [] => none
  | c :: rest =>
    if c = '第' then
      let ds := rest.takeWhile Char.isDigit
      if ds.isEmpty then matchLabelled close rest
      else if (rest.drop ds.length).head? = some close then some (digitsToNat ds)
      else matchLabelled close rest
    else matchLabelled close rest

/-- Match of the anchored pattern of leading digits. -/
def matchLeading : List Char → Option Nat
  | [] => none
  | c :: rest =>
    if c.isDigit then some (digitsToNat (c :: rest.takeWhile Char.isDigit)) else none

/-- Leftmost match of any embedded digit run. -/
def matchAnyNumber : List Char → Option Nat
  | [] => none
  | c :: rest =>
    if c.isDigit then some (digitsToNat (c :: rest.takeWhile Char.isDigit))
    else matchAnyNumber rest

/-- extractNumberFromFileName; none models the JS Infinity result. -/
def extractNumberFromFileName (fileName : String) : Option Nat :=
  match matchLabelled '节' fileName.data with
  | some n => some n
  | none =>
    match matchLabelled '章' fileName.data with
    | some n => some n
    | none =>
      match matchLabelled '课' fileName.data with
      | some n => some n
      | none =>
        match matchLeading fileName.data with
        | some n => some n
        | none => matchAnyNumber fileName.data

/-! ## sortFilesByNumber (fileUtils.ts lines 304-325) -/

/-- The comparator body of sortFilesByNumber: numbers compare numerically,
    a numbered item sorts before an unnumbered one, two unnumbered items
    compare by localeCompare of their names. -/
def compareFiles {α : Type} (nameOf : α → String) (a b : α) : Int :=
  match extractNumberFromFileName (nameOf a), extractNumberFromFileName (nameOf b) with
  | some numA, some numB => (numA : Int) - numB
  | some _, none => -1
  | none, some _ => 1
  | none, none => localeCompare (nameOf a) (nameOf b)

/-- The nonstrict order induced by the comparator. -/
def fileLE {α : Type} (nameOf : α → String) (a b : α) : Bool :=
  decide (compareFiles nameOf a b ≤ 0)

/-- [...files].sort(comparator): a stable sort by the comparator.  The JS
    generic T extends (name : String) becomes the explicit name projection. -/
def sortFilesByNumber {α : Type} (nameOf : α → String) (files : List α) : List α :=
  files.mergeSort (fileLE nameOf)

/-! ## Data model (types/video.ts) -/

/-- VideoFile: the file field holds the opaque content handle, or none for an
    entry restored from a snapshot.  The optional duration and thumbnail
    fields play no role in any claim and are omitted. -/
structure VideoFile where
  file : Option Nat
  name : String
  path : String
  size : Nat
deriving DecidableEq

/-- An entry of the allFiles list of a folder (video or not), as produced by
    buildCompleteFolderTree. -/
structure FileItem where
  file : Option Nat
  name : String
  path : String
  size : Nat
  isVideo : Bool
deriving DecidableEq

/-- FolderNode; allFiles is optional in the TS interface. -/
inductive FolderNode where
  | mk (name path : String) (children : List FolderNode) (videos : List VideoFile)
       (allFiles : Option (List FileItem)) (isExpanded : Bool)

def FolderNode.name : FolderNode → String
  | .mk n _ _ _ _ _ => n

def FolderNode.path : FolderNode → String
  | .mk _ p _ _ _ _ => p

def FolderNode.children : FolderNode → List FolderNode
  | .mk _ _ ch _ _ _ => ch

def FolderNode.videos : FolderNode → List VideoFile
  | .mk _ _ _ vs _ _ => vs

def FolderNode.allFiles : FolderNode → Option (List FileItem)
  | .mk _ _ _ _ af _ => af

def FolderNode.isExpanded : FolderNode → Bool
  | .mk _ _ _ _ _ ex => ex

/-! ## getAllVideosFromFolder (fileUtils.ts lines 366-374) -/

mutual
def getAllVideosFromFolder : FolderNode → List VideoFile
  | .mk _ _ ch vs _ _ => vs ++ getAllVideosFromForest ch
def getAllVideosFromForest : List FolderNode → List VideoFile
  | [] => []
  | f :: fs => getAllVideosFromFolder f ++ getAllVideosFromForest fs
end

/-! ## searchVideos (fileUtils.ts lines 382-405) and the search pipeline of
the FileExplorer component -/

/-- Does the lowered video name contain the lowered search term? -/
def videoMatches (lowerTerm : String) (v : VideoFile) : Bool :=
  isInfixB lowerTerm.data (jsToLower v.name).data

mutual
def searchInFolder (lowerTerm : String) : FolderNode → List VideoFile → List VideoFile
  | .mk _ _ ch vs _ _, results =>
    searchInForest lowerTerm ch (results ++ vs.filter (videoMatches lowerTerm))
def searchInForest (lowerTerm : String) : List FolderNode → List VideoFile → List VideoFile
  | [], results => results
  | f :: fs, results => searchInForest lowerTerm fs (searchInFolder lowerTerm f results)
end

def searchVideos (folders : List FolderNode) (searchTerm : String) : List VideoFile :=
  searchInForest (jsToLower searchTerm) folders []

/-- The search pipeline of the FileExplorer component (handleSearch): an
    empty or whitespace-only input clears the results, otherwise the
    searchVideos results are sorted by the natural-sort comparator. -/
def handleSearch (folders : List FolderNode) (value : String) : List VideoFile :=
  if jsTrim value = "" then [] else sortFilesByNumber VideoFile.name (searchVideos folders value)

/-! ## Snapshot codec (FileExplorer component: simplifyFolderTree and
restoreFolderTree) -/

/-- A serialized video entry: name, path and size only; the handle is
    deliberately dropped. -/
structure SVideo where
  name : String
  path : String
  size : Nat
deriving DecidableEq

/-- A serialized allFiles entry. -/
structure SFile where
  name : String
  path : String
  size : Nat
  isVideo : Bool
deriving DecidableEq

/-- A serialized folder record. -/
inductive SFolder where
  | mk (name path : String) (children : List SFolder) (videos : List SVideo)
       (allFiles : List SFile) (isExpanded : Bool)

def simplifyVideo (v : VideoFile) : SVideo :=
  ⟨v.name, v.path, v.size⟩

def simplifyFile (f : FileItem) : SFile :=
  ⟨f.name, f.path, f.size, f.isVideo⟩

mutual
def simplifyNode : FolderNode → SFolder
  | .mk n p ch vs af ex =>
    .mk n p (simplifyFolderTree ch) (vs.map simplifyVideo)
      ((af.map (fun l => l.map simplifyFile)).getD []) ex
def simplifyFolderTree : List FolderNode → List SFolder
  | [] => []
  | f :: fs => simplifyNode f :: simplifyFolderTree fs
end

/-- A restored video entry has no attached handle. -/
def restoreVideo (v : SVideo) : VideoFile :=
  ⟨none, v.name, v.path, v.size⟩

def restoreFile (f : SFile) : FileItem :=
  ⟨none, f.name, f.path, f.size, f.isVideo⟩

mutual
def restoreNode : SFolder → FolderNode
  | .mk n p ch vs af ex =>
    .mk n p (restoreFolderTree ch) (vs.map restoreVideo)
      (some (af.map restoreFile)) (ex || false)
def restoreFolderTree : List SFolder → List FolderNode
  | [] => []
  | f :: fs => restoreNode f :: restoreFolderTree fs
end

/-! ## loadFolderFromCache (FileExplorer component)

The two localStorage reads are modelled as already-fetched inputs.  The
outer Option is the presence of the key (getItem returning null when it is
missing); the inner Option is the result of JSON.parse: none when the raw
text is unparseable (JSON.parse throws and the surrounding try/catch makes
the function give up), some when parsing succeeds. -/

structure CacheBasicInfo where
  folderName : String
  timestamp : Nat
  fileCount : Nat

/-- The parsed content cache: the saved folder tree (none when the stored
    field is absent or null, which the JS code treats as falsy) and the
    capture timestamp. -/
structure CacheContent where
  folderTree : Option (List SFolder)
  timestamp : Nat

/-- The 7-day retention window, in milliseconds. -/
def cacheRetentionMs : Nat := 7 * 24 * 60 * 60 * 1000

/-- The folders that loadFolderFromCache installs: the empty forest unless
    both cache entries are present and parseable, the content is fresh, and
    a tree is actually stored. -/
def loadFolderFromCache (cached : Option (Option CacheBasicInfo))
    (contentCached : Option (Option CacheContent)) (now : Nat) : List FolderNode :=
  match cached with
  | none => []
  | some none => []
  | some (some _) =>
    match contentCached with
    | none => []
    | some none => []
    | some (some cc) =>
      if now - cc.timestamp > cacheRetentionMs then []
      else
        match cc.folderTree with
        | none => []
        | some tree => restoreFolderTree tree

/-! ## buildCompleteFolderTree (fileUtils.ts lines 58-190)

The JS builder works on a mutable Map from path strings to shared FolderNode
objects; children and file lists are grown in place through the map.  The
embedding makes the object store explicit: a NodeData record per path, with
children represented by their registered paths, mutation as functional map
update, and the final nested FolderNode objects recovered by materializing
the store from the root paths (child paths are always present in the store,
and every chain of children was created at strictly later store positions,
so a fuel of the store size suffices). -/

/-- The per-path record of the builder store. -/
structure NodeData where
  name : String
  path : String
  childPaths : List String
  videos : List VideoFile
  allFiles : List FileItem
  isExpanded : Bool
deriving DecidableEq

/-- The builder store, in insertion order (JS Map preserves it). -/
abbrev FolderMap := List (String × NodeData)

/-- folderMap.get(p). -/
def findNode : FolderMap → String → Option NodeData
  | [], _ => none
  | (q, nd) :: rest, p => if q = p then some nd else findNode rest p

/-- In-place mutation of the node registered at path p. -/
def updateNode (m : FolderMap) (p : String) (f : NodeData → NodeData) : FolderMap :=
  m.map (fun kv => if kv.1 = p then (kv.1, f kv.2) else kv)

/-- The builder state: the store plus the rootFolders list (as paths). -/
structure BuildState where
  map : FolderMap
  roots : List String

/-- The lazily created root sentinel node. -/
def rootNodeData : NodeData := ⟨"根目录", "", [], [], [], true⟩

/-- getRootFolder: create and register the root sentinel on first use. -/
def getRootFolder (st : BuildState) : BuildState :=
  if (findNode st.map "").isSome then st
  else ⟨st.map ++ [("", rootNodeData)], st.roots ++ [""]⟩

/-- children.push(child) on a node record. -/
def pushChild (child : String) (nd : NodeData) : NodeData :=
  { nd with childPaths := nd.childPaths ++ [child] }

/-- The loop state of the per-file walk over the folder segments. -/
structure WalkState where
  map : FolderMap
  roots : List String
  currentPath : String
  currentParent : Option String

/-- One iteration of the pathParts.forEach walk: advance the running path,
    create and link the folder node if the path is new, and reload the
    current parent from the store. -/
def walkStep (ws : WalkState) (folderName : String) : WalkState :=
  let parentPath := ws.currentPath
  let currentPath := joinPathAcc ws.currentPath folderName
  if (findNode ws.map currentPath).isSome then
    ⟨ws.map, ws.roots, currentPath, some currentPath⟩
  else
    let newFolder : NodeData := ⟨folderName, currentPath, [], [], [], false⟩
    let m1 := ws.map ++ [(currentPath, newFolder)]
    match ws.currentParent with
    | some pp => ⟨updateNode m1 pp (pushChild currentPath), ws.roots, currentPath, some currentPath⟩
    | none =>
      if parentPath = "" then
        ⟨m1, ws.roots ++ [currentPath], currentPath, some currentPath⟩
      else
        match findNode m1 parentPath with
        | some _ => ⟨updateNode m1 parentPath (pushChild currentPath), ws.roots, currentPath, some currentPath⟩
        | none => ⟨m1, ws.roots, currentPath, some currentPath⟩

/-- The lighter VideoFile projection pushed alongside a video FileItem. -/
def videoOfItem (it : FileItem) : VideoFile :=
  ⟨it.file, it.name, it.path, it.size⟩

/-- Attach a file to a node record: push to allFiles, and to videos when the
    item is tagged as a video. -/
def addFileToNode (it : FileItem) (nd : NodeData) : NodeData :=
  { nd with
    allFiles := nd.allFiles ++ [it],
    videos := if it.isVideo then nd.videos ++ [videoOfItem it] else nd.videos }

/-- Processing of one descriptor of the batch. -/
def processFile (st : BuildState) (it : FileItem) : BuildState :=
  let pathParts := (jsSplitSlash it.path).dropLast
  if pathParts.isEmpty then
    let st1 := getRootFolder st
    ⟨updateNode st1.map "" (addFileToNode it), st1.roots⟩
  else
    let ws := pathParts.foldl walkStep ⟨st.map, st.roots, "", none⟩
    match ws.currentParent with
    | some pp => ⟨updateNode ws.map pp (addFileToNode it), ws.roots⟩
    | none => ⟨ws.map, ws.roots⟩

/-- The store and root list after the whole batch. -/
def buildState (files : List FileItem) : BuildState :=
  files.foldl processFile ⟨[], []⟩

/-- Recover the nested FolderNode object registered at a path, resolving
    child paths through the store; fuel bounds the recursion depth and the
    store size is always enough fuel. -/
def materialize (m : FolderMap) : Nat → String → FolderNode
  | 0, p =>
    match findNode m p with
    | none => .mk "" p [] [] (some []) false
    | some nd => .mk nd.name nd.path [] nd.videos (some nd.allFiles) nd.isExpanded
  | fuel + 1, p =>
    match findNode m p with
    | none => .mk "" p [] [] (some []) false
    | some nd =>
      .mk nd.name nd.path (nd.childPaths.map (materialize m fuel)) nd.videos
        (some nd.allFiles) nd.isExpanded

/-- sortFolderContents: sort allFiles, videos and children of a folder and
    recurse into the (sorted) children.  The JS guards the children sort by a
    nonemptiness test; sorting an empty list returns an empty list, so the
    guard is transparent and is omitted here (it is kept on the two file
    lists, where it costs nothing). -/
def sortFolderContents : FolderNode → FolderNode
  | .mk n p ch vs af ex =>
    let af2 := match af with
      | none => none
      | some fs => some (if fs.isEmpty then fs else sortFilesByNumber FileItem.name fs)
    let vs2 := if vs.isEmpty then vs else sortFilesByNumber VideoFile.name vs
    .mk n p (((sortFilesByNumber FolderNode.name ch).attach).map
      (fun c => sortFolderContents c.1)) vs2 af2 ex
decreasing_by
  have h2 := List.mem_mergeSort.mp c.2
  have h3 := List.sizeOf_lt_of_mem h2
  simp only [FolderNode.mk.sizeOf_spec]
  omega

/-- buildCompleteFolderTree: build the store, materialize the root folders,
    sort every folder recursively, and sort the root list itself. -/
def buildCompleteFolderTree (files : List FileItem) : List FolderNode :=
  let st := buildState files
  let rootFolders := st.roots.map (materialize st.map st.map.length)
  sortFilesByNumber FolderNode.name (rootFolders.map sortFolderContents)

/-! ## Derived observers used to state the claims -/

mutual
def allNodesN : FolderNode → List FolderNode
  | .mk n p ch vs af ex => .mk n p ch vs af ex :: allNodesF ch
def allNodesF : List FolderNode → List FolderNode
  | [] => []
  | f :: fs => allNodesN f ++ allNodesF fs
end

mutual
def depthN : FolderNode → Nat
  | .mk _ _ ch _ _ _ => 1 + depthF ch
def depthF : List FolderNode → Nat
  | [] => 0
  | f :: fs => max (depthN f) (depthF fs)
end

/-- The child relation of the builder store: q is registered as a child of
    the node at p. -/
def childRel (m : FolderMap) (p q : String) : Prop :=
  ∃ nd, findNode m p = some nd ∧ q ∈ nd.childPaths

/-- The folder segments of a descriptor path (split parts minus file name). -/
def folderSegs (path : String) : List String :=
  (jsSplitSlash path).dropLast

/-- Tree level of a store key: number of its slash segments, with the root
    sentinel key at level one. -/
def keyLevel (p : String) : Nat :=
  if p = "" then 1 else (jsSplitSlash p).length

/-- The depth formula of the claim: maximum folder-segment count. -/
def maxFolderSegs (files : List FileItem) : Nat :=
  files.foldl (fun acc it => max acc (folderSegs it.path).length) 0

/-- The corrected depth formula: each descriptor contributes at least one
    level because a descriptor without folder segments still materializes
    the root sentinel folder. -/
def maxFolderSegsClamped (files : List FileItem) : Nat :=
  files.foldl (fun acc it => max acc (max (folderSegs it.path).length 1)) 0

/-! ## Invariant predicates of the builder store -/

/-- The registered paths of the store, in insertion order. -/
def mapKeys (m : FolderMap) : List String := m.map Prod.fst

/-- Every registered node carries its own key as path. -/
def pathsConsistent (m : FolderMap) : Prop :=
  ∀ p nd, findNode m p = some nd → nd.path = p

/-- The videos list of every node is the video projection of its allFiles. -/
def videosConsistent (m : FolderMap) : Prop :=
  ∀ p nd, findNode m p = some nd →
    nd.videos = (nd.allFiles.filter (fun it => it.isVideo)).map videoOfItem

/-- Every file sits under the key computed by the path accumulation of its
    own folder segments. -/
def filesKeyOk (m : FolderMap) : Prop :=
  ∀ p nd, findNode m p = some nd → ∀ it ∈ nd.allFiles, attachKey it.path = p

/-- Child paths always refer to registered nodes. -/
def childrenRegistered (m : FolderMap) : Prop :=
  ∀ p nd, findNode m p = some nd → ∀ q ∈ nd.childPaths, (findNode m q).isSome

/-- Every child path extends its parent key by one slash-free segment. -/
def childStep (m : FolderMap) : Prop :=
  ∀ p nd, findNode m p = some nd → ∀ q ∈ nd.childPaths,
    ∃ s, ('/' ∉ s.data) ∧ q = joinPathAcc p s ∧ q ≠ p

/-- No child is registered twice under one parent. -/
def childPathsNodup (m : FolderMap) : Prop :=
  ∀ p nd, findNode m p = some nd → nd.childPaths.Nodup

/-- The store keys are distinct (it models a JS Map). -/
def keysNodup (m : FolderMap) : Prop := (mapKeys m).Nodup

/-- The unconditional store invariants. -/
def mapOK (m : FolderMap) : Prop :=
  pathsConsistent m ∧ videosConsistent m ∧ filesKeyOk m ∧ childrenRegistered m ∧
  childStep m ∧ childPathsNodup m ∧ keysNodup m

/-- The rootFolders list refers to registered nodes. -/
def rootsRegistered (st : BuildState) : Prop :=
  ∀ p ∈ st.roots, (findNode st.map p).isSome

/-- The loop invariant of the per-file segment walk. -/
def WalkInv (ws : WalkState) : Prop :=
  mapOK ws.map ∧ (∀ p ∈ ws.roots, (findNode ws.map p).isSome) ∧
  (ws.currentParent = none → ws.currentPath = "") ∧
  (∀ p, ws.currentParent = some p → p = ws.currentPath ∧ (findNode ws.map p).isSome)

/-- The walk never changes the payload fields of an existing node; its
    children only grow. -/
def preservesNode (m m2 : FolderMap) : Prop :=
  ∀ p nd, findNode m p = some nd → ∃ nd2, findNode m2 p = some nd2 ∧
    nd2.name = nd.name ∧ nd2.path = nd.path ∧ nd2.videos = nd.videos ∧
    nd2.allFiles = nd.allFiles ∧ nd2.isExpanded = nd.isExpanded ∧
    (∀ q ∈ nd.childPaths, q ∈ nd2.childPaths)

/-- Nodes created by the walk start with empty file lists. -/
def freshEmpty (m m2 : FolderMap) : Prop :=
  ∀ p nd2, findNode m2 p = some nd2 → findNode m p = none →
    nd2.videos = [] ∧ nd2.allFiles = []

/-! ## Notions for the acyclicity and depth claims -/

/-- Slash join on character lists (the character-level joinSlash). -/
def joinChars : List (List Char) → List Char
  | [] => []
  | [x] => x
  | x :: rest => x ++ '/' :: joinChars rest

/-- Depth measure used for acyclicity: the root sentinel key sits strictly
    below every other key, other keys are measured by their segment count. -/
def acycMeasure (p : String) : Nat :=
  if p = "" then 0 else (jsSplitSlash p).length

/-- A key is good when its first slash segment is nonempty (the root
    sentinel key is good by convention). -/
def goodKey (k : String) : Prop :=
  k ≠ "" → (jsSplitSlash k).headI ≠ ""

/-- A chain of store keys linked by the child relation, anchored at a
    registered head. -/
def chainOK (m : FolderMap) : List String → Prop
  | [] => True
  | [k] => (findNode m k).isSome
  | k1 :: k2 :: rest => childRel m k1 k2 ∧ chainOK m (k2 :: rest)

/-- Witness that a key arises from the batch: it is either the root
    sentinel key, justified by a descriptor without folder segments, or a
    nonempty prefix of the folder segments of some descriptor. -/
def keyWitness (files : List FileItem) (k : String) : Prop :=
  (k = "" ∧ ∃ it ∈ files, folderSegs it.path = []) ∨
  (∃ it ∈ files, ∃ j, 1 ≤ j ∧ j ≤ (folderSegs it.path).length ∧
    k = joinSlash ((folderSegs it.path).take j))

/-- The additional store invariants of a build over normalized paths:
    the root sentinel has no children, key levels are bounded by B, roots
    sit at level one, keys are good, every deeper key is linked as a child
    of its parent key, a registered root sentinel is a forest root, every
    key is justified by the batch, and node names are the last segment of
    their key (the sentinel name for the sentinel key). -/
def goodStore (st : BuildState) (B : Nat) (files : List FileItem) : Prop :=
  (∀ nd, findNode st.map "" = some nd → nd.childPaths = []) ∧
  (∀ k ∈ mapKeys st.map, keyLevel k ≤ B) ∧
  (∀ r ∈ st.roots, keyLevel r = 1) ∧
  (∀ k ∈ mapKeys st.map, goodKey k) ∧
  (∀ k nd, findNode st.map k = some nd → k ≠ "" →
    (keyLevel k = 1 → k ∈ st.roots) ∧
    (2 ≤ keyLevel k → childRel st.map (parentPathOf k) k)) ∧
  ((findNode st.map "").isSome → "" ∈ st.roots) ∧
  (∀ k ∈ mapKeys st.map, keyWitness files k) ∧
  (∀ k nd, findNode st.map k = some nd →
    nd.name = if k = "" then "根目录" else (jsSplitSlash k).getLastD "")

/-! # Theorems

Helper lemmas come first, then the claim theorems with their witnesses. -/

/-! ## The snapshot codec round trip (claim C1) -/

theorem simplifyVideo_restoreVideo (v : SVideo) : simplifyVideo (restoreVideo v) = v := rfl

theorem simplifyFile_restoreFile (f : SFile) : simplifyFile (restoreFile f) = f := rfl

mutual
theorem simplifyNode_restoreNode (s : SFolder) : simplifyNode (restoreNode s) = s := by
  match s with
  | .mk n p ch vs af ex =>
    rw [restoreNode, simplifyNode, simplifyFolderTree_restoreFolderTree ch]
    simp [Function.comp_def, simplifyVideo_restoreVideo, simplifyFile_restoreFile]
theorem simplifyFolderTree_restoreFolderTree (l : List SFolder) :
    simplifyFolderTree (restoreFolderTree l) = l := by
  match l with
  | [] => rw [restoreFolderTree, simplifyFolderTree]
  | f :: fs =>
    rw [restoreFolderTree, simplifyFolderTree, simplifyNode_restoreNode f,
      simplifyFolderTree_restoreFolderTree fs]
end

/-- C1: for every forest T, serializing, restoring the result, and
serializing again yields a snapshot equal to the first serialization: the
same names, paths, children nesting, videos and allFiles entries, in the
same order. -/
theorem serialize_restore_serialize_roundtrip (T : List FolderNode) :
    simplifyFolderTree (restoreFolderTree (simplifyFolderTree T)) = simplifyFolderTree T :=
  simplifyFolderTree_restoreFolderTree (simplifyFolderTree T)

/-! ## Search on blank terms (claim C2) -/

theorem dropWhile_eq_nil_of_all {p : Char → Bool} :
    ∀ {l : List Char}, (∀ c ∈ l, p c) → l.dropWhile p = []
  | [], _ => rfl
  | c :: cs, h => by
    rw [List.dropWhile_cons_of_pos (h c (List.mem_cons_self c cs))]
    exact dropWhile_eq_nil_of_all (fun x hx => h x (List.mem_cons_of_mem c hx))

theorem jsTrim_eq_empty_of_whitespace {s : String}
    (h : ∀ c ∈ s.data, c.isWhitespace) : jsTrim s = "" := by
  rw [jsTrim, dropWhile_eq_nil_of_all h]
  rfl

/-- C2: searching with an empty or whitespace-only term returns the empty
sequence of results. -/
theorem handleSearch_blank_term (folders : List FolderNode) (term : String)
    (h : term = "" ∨ ∀ c ∈ term.data, c.isWhitespace) :
    handleSearch folders term = [] := by
  have hw : ∀ c ∈ term.data, c.isWhitespace := by
    cases h with
    | inl h => subst h; intro c hc; cases hc
    | inr h => exact h
  rw [handleSearch, if_pos (jsTrim_eq_empty_of_whitespace hw)]

/-- Witness for C2 at a concrete forest and a whitespace-only term. -/
theorem handleSearch_blank_term_witness :
    handleSearch [FolderNode.mk "A" "A" [] [⟨some 0, "a.mp4", "A/a.mp4", 3⟩] (some []) false] "  " = [] :=
  handleSearch_blank_term _ "  " (Or.inr (by decide))

/-! ## Cache restore failure paths (claim C9) -/

/-- C9: restoring from a missing cache entry, an unparseable cache entry, or
an expired snapshot yields the empty forest, the same result as having no
prior session; the modelled function is total, so no error escapes. -/
theorem loadFolderFromCache_failure (cached : Option (Option CacheBasicInfo))
    (contentCached : Option (Option CacheContent)) (now : Nat)
    (h : cached = none ∨ cached = some none ∨ contentCached = none ∨
      contentCached = some none ∨
      ∃ cc, contentCached = some (some cc) ∧ now - cc.timestamp > cacheRetentionMs) :
    loadFolderFromCache cached contentCached now = [] := by
  rcases h with h | h | h | h | ⟨cc, hcc, hexp⟩
  · subst h; rfl
  · subst h; rfl
  · subst h
    cases cached with
    | none => rfl
    | some b => cases b with
      | none => rfl
      | some _ => rfl
  · subst h
    cases cached with
    | none => rfl
    | some b => cases b with
      | none => rfl
      | some _ => rfl
  · subst hcc
    cases cached with
    | none => rfl
    | some b =>
      cases b with
      | none => rfl
      | some _ =>
        rw [loadFolderFromCache]
        simp only [if_pos hexp]

/-- Witness for C9: an expired snapshot (captured at time 0, read 8 days
later) restores to the empty forest. -/
theorem loadFolderFromCache_failure_witness :
    loadFolderFromCache (some (some ⟨"f", 0, 1⟩))
      (some (some ⟨some [SFolder.mk "A" "A" [] [] [] false], 0⟩)) (8 * 24 * 60 * 60 * 1000) = [] :=
  loadFolderFromCache_failure _ _ _
    (Or.inr (Or.inr (Or.inr (Or.inr ⟨_, rfl, by decide⟩))))

/-! ## extractNumberFromFileName: pattern priority and absence (claim C5) -/

theorem matchLabelled_none_of_no_digit (close : Char) :
    ∀ l : List Char, (∀ c ∈ l, ¬ c.isDigit) → matchLabelled close l = none
  | [], _ => rfl
  | c :: rest, h => by
    have hrest : ∀ x ∈ rest, ¬ x.isDigit := fun x hx => h x (List.mem_cons_of_mem c hx)
    have hds : rest.takeWhile Char.isDigit = [] := by
      cases rest with
      | nil => rfl
      | cons r rs => exact List.takeWhile_cons_of_neg (by simpa using hrest r (List.mem_cons_self r rs))
    rw [matchLabelled]
    by_cases hc : c = '第'
    · rw [if_pos hc]
      simp only [hds, List.isEmpty_nil, if_true]
      exact matchLabelled_none_of_no_digit close rest hrest
    · rw [if_neg hc]
      exact matchLabelled_none_of_no_digit close rest hrest

theorem matchLeading_none_of_no_digit :
    ∀ l : List Char, (∀ c ∈ l, ¬ c.isDigit) → matchLeading l = none
  | [], _ => rfl
  | c :: rest, h => by
    rw [matchLeading, if_neg (by simpa using h c (List.mem_cons_self c rest))]

theorem matchAnyNumber_none_of_no_digit :
    ∀ l : List Char, (∀ c ∈ l, ¬ c.isDigit) → matchAnyNumber l = none
  | [], _ => rfl
  | c :: rest, h => by
    rw [matchAnyNumber, if_neg (by simpa using h c (List.mem_cons_self c rest))]
    exact matchAnyNumber_none_of_no_digit rest (fun x hx => h x (List.mem_cons_of_mem c hx))

/-- C5: the ordering key is a deterministic function of the name computed by
pattern priority: a labelled-unit match (第N节, then 第N章, then 第N课) wins
over any other digits in the name; a name with no digits at all has an
absent key (the JS Infinity), and an absent key sorts after every numbered
item under the comparator. -/
theorem extractNumber_priority :
    (∀ (s : String) (n : Nat), matchLabelled '节' s.data = some n →
      extractNumberFromFileName s = some n) ∧
    (∀ (s : String) (n : Nat), matchLabelled '节' s.data = none →
      matchLabelled '章' s.data = some n → extractNumberFromFileName s = some n) ∧
    (∀ (s : String) (n : Nat), matchLabelled '节' s.data = none →
      matchLabelled '章' s.data = none → matchLabelled '课' s.data = some n →
      extractNumberFromFileName s = some n) ∧
    (∀ s : String, (∀ c ∈ s.data, ¬ c.isDigit) → extractNumberFromFileName s = none) ∧
    (∀ s t : String, extractNumberFromFileName s = none →
      (∃ n, extractNumberFromFileName t = some n) → 0 < compareFiles id s t) := by
  refine ⟨?_, ?_, ?_, ?_, ?_⟩
  · intro s n h
    rw [extractNumberFromFileName, h]
  · intro s n h1 h2
    rw [extractNumberFromFileName, h1, h2]
  · intro s n h1 h2 h3
    rw [extractNumberFromFileName, h1, h2, h3]
  · intro s h
    rw [extractNumberFromFileName, matchLabelled_none_of_no_digit _ _ h,
      matchLabelled_none_of_no_digit _ _ h, matchLabelled_none_of_no_digit _ _ h,
      matchLeading_none_of_no_digit _ h, matchAnyNumber_none_of_no_digit _ h]
  · intro s t hs ht
    obtain ⟨n, hn⟩ := ht
    simp only [compareFiles, id, hs, hn]
    omega

/-- Witness for C5: in 第7节x10 the labelled pattern beats the embedded 10,
and a digit-free name has an absent key. -/
theorem extractNumber_priority_witness :
    extractNumberFromFileName "第7节x10" = some 7 ∧
    extractNumberFromFileName "intro.mp" = none :=
  ⟨extractNumber_priority.1 "第7节x10" 7 (by decide),
   extractNumber_priority.2.2.2.1 "intro.mp" (by decide)⟩

/-! ## The comparator is a total preorder -/

theorem cmpChars_nil_le : ∀ z : List Char, cmpChars [] z ≤ 0
  | [] => by simp [cmpChars]
  | _ :: _ => by simp [cmpChars]

theorem cmpChars_trans : ∀ {x y z : List Char},
    cmpChars x y ≤ 0 → cmpChars y z ≤ 0 → cmpChars x z ≤ 0
  | [], _, z, _, _ => cmpChars_nil_le z
  | a :: as, [], z, h1, _ => by simp [cmpChars] at h1
  | a :: as, b :: bs, [], _, h2 => by simp [cmpChars] at h2
  | a :: as, b :: bs, c :: cs, h1, h2 => by
    simp only [cmpChars] at h1 h2 ⊢
    by_cases hab : a.toNat < b.toNat
    · by_cases hbc : b.toNat < c.toNat
      · rw [if_pos (Nat.lt_trans hab hbc)]; omega
      · by_cases hcb : c.toNat < b.toNat
        · rw [if_neg hbc, if_pos hcb] at h2; omega
        · rw [if_pos (by omega : a.toNat < c.toNat)]; omega
    · by_cases hba : b.toNat < a.toNat
      · rw [if_neg hab, if_pos hba] at h1; omega
      · rw [if_neg hab, if_neg hba] at h1
        by_cases hbc : b.toNat < c.toNat
        · rw [if_pos (by omega : a.toNat < c.toNat)]; omega
        · by_cases hcb : c.toNat < b.toNat
          · rw [if_neg hbc, if_pos hcb] at h2; omega
          · rw [if_neg hbc, if_neg hcb] at h2
            rw [if_neg (by omega : ¬ a.toNat < c.toNat),
              if_neg (by omega : ¬ c.toNat < a.toNat)]
            exact cmpChars_trans h1 h2

theorem cmpChars_total : ∀ x y : List Char, cmpChars x y ≤ 0 ∨ cmpChars y x ≤ 0
  | [], y => Or.inl (cmpChars_nil_le y)
  | _ :: _, [] => Or.inr (cmpChars_nil_le _)
  | a :: as, b :: bs => by
    simp only [cmpChars]
    by_cases hab : a.toNat < b.toNat
    · left; rw [if_pos hab]; omega
    · by_cases hba : b.toNat < a.toNat
      · right; rw [if_pos hba]; omega
      · rw [if_neg hab, if_neg hba, if_neg hba, if_neg hab]
        exact cmpChars_total as bs

theorem fileLE_trans {α : Type} (nameOf : α → String) :
    ∀ a b c, fileLE nameOf a b = true → fileLE nameOf b c = true →
      fileLE nameOf a c = true := by
  intro a b c h1 h2
  simp only [fileLE, decide_eq_true_eq] at h1 h2 ⊢
  rcases hA : extractNumberFromFileName (nameOf a) with _ | na <;>
    rcases hB : extractNumberFromFileName (nameOf b) with _ | nb <;>
    rcases hC : extractNumberFromFileName (nameOf c) with _ | nc <;>
    simp only [compareFiles, hA, hB, hC, localeCompare] at h1 h2 ⊢ <;>
    first
      | omega
      | exact cmpChars_trans h1 h2

theorem fileLE_total {α : Type} (nameOf : α → String) :
    ∀ a b, (fileLE nameOf a b || fileLE nameOf b a) = true := by
  intro a b
  simp only [fileLE, Bool.or_eq_true, decide_eq_true_eq]
  rcases hA : extractNumberFromFileName (nameOf a) with _ | na <;>
    rcases hB : extractNumberFromFileName (nameOf b) with _ | nb <;>
    simp only [compareFiles, hA, hB, localeCompare] <;>
    first
      | omega
      | exact cmpChars_total _ _

theorem fileLE_consequences {α : Type} (nameOf : α → String) (a b : α)
    (h : fileLE nameOf a b = true) :
    (∀ nb, extractNumberFromFileName (nameOf b) = some nb →
      ∃ na, extractNumberFromFileName (nameOf a) = some na ∧ na ≤ nb) ∧
    (extractNumberFromFileName (nameOf a) = none →
      extractNumberFromFileName (nameOf b) = none →
      localeCompare (nameOf a) (nameOf b) ≤ 0) := by
  simp only [fileLE, decide_eq_true_eq] at h
  rcases hA : extractNumberFromFileName (nameOf a) with _ | na <;>
    rcases hB : extractNumberFromFileName (nameOf b) with _ | nb
  · simp only [compareFiles, hA, hB] at h
    exact ⟨fun nb hnb => (by cases hnb), fun _ _ => h⟩
  · simp only [compareFiles, hA, hB] at h
    omega
  · exact ⟨fun nb hnb => (by cases hnb), fun ha _ => (by cases ha)⟩
  · simp only [compareFiles, hA, hB] at h
    refine ⟨fun nb2 hnb2 => ?_, fun ha _ => by cases ha⟩
    obtain rfl : nb = nb2 := by cases hnb2; rfl
    exact ⟨na, rfl, by omega⟩

/-! ## Natural sort (claim C4)

The concrete scenario of the claim is false on the code: the name
intro.mp4 contains the digit 4 (in the extension), so the fallback digit
pattern gives it the key 4 rather than an absent key, and the sort places it
between episode2.mp4 (key 2) and episode10.mp4 (key 10). -/

/-- C4 counterexample: sorting the three names of the claim yields
episode2, intro, episode10 - not the claimed episode2, episode10, intro -
because intro.mp4 extracts the key 4 from its extension. -/
theorem natural_sort_example_counterexample :
    sortFilesByNumber id ["episode10.mp4", "episode2.mp4", "intro.mp4"] =
      ["episode2.mp4", "intro.mp4", "episode10.mp4"] ∧
    sortFilesByNumber id ["episode10.mp4", "episode2.mp4", "intro.mp4"] ≠
      ["episode2.mp4", "episode10.mp4", "intro.mp4"] ∧
    extractNumberFromFileName "intro.mp4" = some 4 := by
  have heval : sortFilesByNumber id ["episode10.mp4", "episode2.mp4", "intro.mp4"] =
      ["episode2.mp4", "intro.mp4", "episode10.mp4"] := by
    simp [sortFilesByNumber, List.mergeSort, List.splitInTwo, List.splitAt,
      List.splitAt.go, List.merge,
      show fileLE id "episode10.mp4" "episode2.mp4" = false from by decide,
      show fileLE id "episode2.mp4" "intro.mp4" = true from by decide,
      show fileLE id "episode10.mp4" "intro.mp4" = false from by decide]
  refine ⟨heval, ?_, by decide⟩
  rw [heval]
  decide

/-- C4 (amended): the comparator sorts any input list into a permutation in
which an item with an extracted key precedes any later item without one,
items with keys are in ascending key order, keyless items are in
lexicographic name order, and the sort is stable (any pair already in
comparator order keeps its relative order); the scenario is amended to the
actual output: intro.mp4 extracts the key 4 from its extension, so sorting
the three names of the claim yields episode2, intro, episode10. -/
theorem sortFilesByNumber_ordering :
    (∀ (α : Type) (nameOf : α → String) (l : List α),
      List.Perm (sortFilesByNumber nameOf l) l ∧
      List.Pairwise (fun a b =>
        (∀ nb, extractNumberFromFileName (nameOf b) = some nb →
          ∃ na, extractNumberFromFileName (nameOf a) = some na ∧ na ≤ nb) ∧
        (extractNumberFromFileName (nameOf a) = none →
          extractNumberFromFileName (nameOf b) = none →
          localeCompare (nameOf a) (nameOf b) ≤ 0)) (sortFilesByNumber nameOf l) ∧
      (∀ a b, List.Sublist [a, b] l → fileLE nameOf a b = true →
        List.Sublist [a, b] (sortFilesByNumber nameOf l))) ∧
    sortFilesByNumber id ["episode10.mp4", "episode2.mp4", "intro.mp4"] =
      ["episode2.mp4", "intro.mp4", "episode10.mp4"] := by
  constructor
  · intro α nameOf l
    refine ⟨List.mergeSort_perm l _, ?_, ?_⟩
    · have hs := List.sorted_mergeSort
        (fun a b c => fileLE_trans nameOf a b c)
        (fun a b => fileLE_total nameOf a b) l
      exact hs.imp (fun hab => fileLE_consequences nameOf _ _ hab)
    · intro a b hsub hle
      exact List.pair_sublist_mergeSort
        (fun x y z => fileLE_trans nameOf x y z)
        (fun x y => fileLE_total nameOf x y) hle hsub
  · simp [sortFilesByNumber, List.mergeSort, List.splitInTwo, List.splitAt,
      List.splitAt.go, List.merge,
      show fileLE id "episode10.mp4" "episode2.mp4" = false from by decide,
      show fileLE id "episode2.mp4" "intro.mp4" = true from by decide,
      show fileLE id "episode10.mp4" "intro.mp4" = false from by decide]

/-- Witness for C4 at a concrete input: the stability clause applied to a
pair of tied names. -/
theorem sortFilesByNumber_ordering_witness :
    List.Sublist ["1a", "1b"] (sortFilesByNumber id ["1a", "1b"]) :=
  (sortFilesByNumber_ordering.1 String id ["1a", "1b"]).2.2 "1a" "1b"
    (List.Sublist.refl _) (by decide)

/-! ## Search characterization (claim C3)

The claim quantifies over every nonempty term, but the component clears the
results for any term that trims to the empty string, even a nonempty
whitespace one, while such a term can occur inside a video name; the
characterization holds for every term that does not trim to empty. -/

mutual
theorem searchInFolder_eq (low : String) (f : FolderNode) (acc : List VideoFile) :
    searchInFolder low f acc = acc ++ (getAllVideosFromFolder f).filter (videoMatches low) := by
  match f with
  | .mk n p ch vs af ex =>
    rw [searchInFolder, getAllVideosFromFolder,
      searchInForest_eq low ch (acc ++ vs.filter (videoMatches low)),
      List.filter_append, List.append_assoc]
theorem searchInForest_eq (low : String) (fs : List FolderNode) (acc : List VideoFile) :
    searchInForest low fs acc = acc ++ (getAllVideosFromForest fs).filter (videoMatches low) := by
  match fs with
  | [] => rw [searchInForest, getAllVideosFromForest, List.filter_nil, List.append_nil]
  | f :: rest =>
    rw [searchInForest, searchInFolder_eq low f acc, searchInForest_eq low rest _,
      getAllVideosFromForest, List.filter_append, List.append_assoc]
end

theorem searchVideos_eq_filter (folders : List FolderNode) (term : String) :
    searchVideos folders term =
      (getAllVideosFromForest folders).filter (videoMatches (jsToLower term)) := by
  rw [searchVideos, searchInForest_eq, List.nil_append]

/-- C3 counterexample: the term consisting of one space is nonempty and is
contained in the video name a b.mp4, yet the search pipeline returns the
empty sequence because the term trims to the empty string. -/
theorem search_nonempty_term_counterexample :
    (" " : String) ≠ "" ∧
    handleSearch [FolderNode.mk "A" "A" [] [⟨some 0, "a b.mp4", "A/a b.mp4", 1⟩] (some []) false]
      " " = [] ∧
    (getAllVideosFromForest
        [FolderNode.mk "A" "A" [] [⟨some 0, "a b.mp4", "A/a b.mp4", 1⟩] (some []) false]).filter
      (videoMatches (jsToLower " ")) = [⟨some 0, "a b.mp4", "A/a b.mp4", 1⟩] := by
  refine ⟨by decide, ?_, ?_⟩
  · rw [handleSearch, if_pos (by decide)]
  · rw [getAllVideosFromForest, getAllVideosFromFolder, getAllVideosFromForest]
    decide

/-- C3 (amended): for every forest and every term that does not trim to the
empty string, the search pipeline returns exactly the video entries of the
depth-first pre-order collection of the videos lists of all folders whose
lowered name contains the lowered term, never any non-video entry, and the
returned sequence is ordered by the natural-sort comparator. -/
theorem search_characterization (folders : List FolderNode) (term : String)
    (h : jsTrim term ≠ "") :
    List.Perm (handleSearch folders term)
      ((getAllVideosFromForest folders).filter (videoMatches (jsToLower term))) ∧
    List.Pairwise (fun a b => fileLE VideoFile.name a b = true) (handleSearch folders term) := by
  rw [handleSearch, if_neg h, sortFilesByNumber, searchVideos_eq_filter]
  refine ⟨List.mergeSort_perm _ _, ?_⟩
  have hs := List.sorted_mergeSort
    (fun a b c => fileLE_trans VideoFile.name a b c)
    (fun a b => fileLE_total VideoFile.name a b)
    ((getAllVideosFromForest folders).filter (videoMatches (jsToLower term)))
  exact hs.imp (fun hab => hab)

/-- Witness for C3 at a concrete forest and term. -/
theorem search_characterization_witness :
    List.Perm
      (handleSearch [FolderNode.mk "A" "A" []
        [⟨some 0, "Lesson 1.mp4", "A/Lesson 1.mp4", 1⟩] (some []) false] "lesson")
      ((getAllVideosFromForest [FolderNode.mk "A" "A" []
        [⟨some 0, "Lesson 1.mp4", "A/Lesson 1.mp4", 1⟩] (some []) false]).filter
        (videoMatches (jsToLower "lesson"))) ∧
    List.Pairwise (fun a b => fileLE VideoFile.name a b = true)
      (handleSearch [FolderNode.mk "A" "A" []
        [⟨some 0, "Lesson 1.mp4", "A/Lesson 1.mp4", 1⟩] (some []) false] "lesson") :=
  search_characterization _ "lesson" (by decide)

/-! ## Store lookup lemmas -/

theorem findNode_eq_none_iff (m : FolderMap) (p : String) :
    findNode m p = none ↔ p ∉ mapKeys m := by
  induction m with
  | nil => simp [findNode, mapKeys]
  | cons kv rest ih =>
    obtain ⟨q, nd⟩ := kv
    by_cases h : q = p
    · subst h
      simp [findNode, mapKeys]
    · simp [findNode, h, mapKeys, ih, Ne.symm h]

theorem findNode_isSome_iff (m : FolderMap) (p : String) :
    (findNode m p).isSome ↔ p ∈ mapKeys m := by
  rcases h : findNode m p with _ | nd
  · simp [(findNode_eq_none_iff m p).mp h]
  · simp only [Option.isSome_some, true_iff]
    by_contra hp
    rw [(findNode_eq_none_iff m p).mpr hp] at h
    cases h

theorem mem_mapKeys_of_findNode {m : FolderMap} {p : String} {nd : NodeData}
    (h : findNode m p = some nd) : p ∈ mapKeys m := by
  rw [← findNode_isSome_iff, h]
  rfl

theorem findNode_append (m1 m2 : FolderMap) (p : String) :
    findNode (m1 ++ m2) p =
      match findNode m1 p with
      | some nd => some nd
      | none => findNode m2 p := by
  induction m1 with
  | nil => simp [findNode]
  | cons kv rest ih =>
    obtain ⟨q, nd⟩ := kv
    by_cases h : q = p
    · subst h
      simp [findNode]
    · simp [findNode, h, ih]

theorem findNode_update (m : FolderMap) (k : String) (f : NodeData → NodeData) (p : String) :
    findNode (updateNode m k f) p =
      if p = k then (findNode m p).map f else findNode m p := by
  induction m with
  | nil => by_cases h : p = k <;> simp [updateNode, findNode, h]
  | cons kv rest ih =>
    obtain ⟨q, nd⟩ := kv
    have hmap : updateNode ((q, nd) :: rest) k f =
        (if q = k then (q, f nd) else (q, nd)) :: updateNode rest k f := rfl
    rw [hmap]
    by_cases hqk : q = k
    · rw [if_pos hqk]
      by_cases hqp : q = p
      · subst hqp
        rw [show findNode ((q, f nd) :: updateNode rest k f) q = some (f nd) from by
          simp [findNode]]
        rw [show findNode ((q, nd) :: rest) q = some nd from by simp [findNode]]
        rw [if_pos hqk]
        rfl
      · rw [show findNode ((q, f nd) :: updateNode rest k f) p = findNode (updateNode rest k f) p
          from by simp [findNode, hqp]]
        rw [show findNode ((q, nd) :: rest) p = findNode rest p from by simp [findNode, hqp]]
        exact ih
    · rw [if_neg hqk]
      by_cases hqp : q = p
      · subst hqp
        rw [show findNode ((q, nd) :: updateNode rest k f) q = some nd from by simp [findNode]]
        rw [show findNode ((q, nd) :: rest) q = some nd from by simp [findNode]]
        rw [if_neg hqk]
      · rw [show findNode ((q, nd) :: updateNode rest k f) p = findNode (updateNode rest k f) p
          from by simp [findNode, hqp]]
        rw [show findNode ((q, nd) :: rest) p = findNode rest p from by simp [findNode, hqp]]
        exact ih

theorem mapKeys_update (m : FolderMap) (k : String) (f : NodeData → NodeData) :
    mapKeys (updateNode m k f) = mapKeys m := by
  induction m with
  | nil => rfl
  | cons kv rest ih =>
    have hmap : updateNode (kv :: rest) k f =
        (if kv.1 = k then (kv.1, f kv.2) else kv) :: updateNode rest k f := rfl
    rw [hmap]
    by_cases h : kv.1 = k
    · rw [if_pos h]
      show kv.1 :: mapKeys (updateNode rest k f) = kv.1 :: mapKeys rest
      rw [ih]
    · rw [if_neg h]
      show kv.1 :: mapKeys (updateNode rest k f) = kv.1 :: mapKeys rest
      rw [ih]

theorem mapKeys_append (m1 m2 : FolderMap) :
    mapKeys (m1 ++ m2) = mapKeys m1 ++ mapKeys m2 :=
  List.map_append _ _ _

theorem findNode_update_isSome (m : FolderMap) (k : String) (f : NodeData → NodeData)
    (p : String) : (findNode (updateNode m k f) p).isSome = (findNode m p).isSome := by
  rw [findNode_update]
  by_cases h : p = k
  · simp [h]
  · simp [h]

/-! ## Path accumulation lemmas -/

theorem joinPathAcc_empty_left (s : String) : joinPathAcc "" s = s := by
  simp [joinPathAcc]

theorem joinPathAcc_of_ne {acc : String} (s : String) (h : acc ≠ "") :
    joinPathAcc acc s = acc ++ "/" ++ s := by
  simp [joinPathAcc, h]

theorem append_slash_ne_empty (acc s : String) : acc ++ "/" ++ s ≠ "" := by
  intro h
  have := congrArg String.data h
  simp at this

theorem joinPathAcc_ne_empty {acc : String} (s : String) (h : acc ≠ "") :
    joinPathAcc acc s ≠ "" := by
  rw [joinPathAcc_of_ne s h]
  exact append_slash_ne_empty acc s

theorem joinSlash_cons_append (a s : String) (t : List String) :
    joinSlash ((a ++ "/" ++ s) :: t) = a ++ "/" ++ joinSlash (s :: t) := by
  cases t with
  | nil => simp [joinSlash]
  | cons u us => simp [joinSlash, String.append_assoc]

theorem foldl_joinPathAcc_of_ne (t : List String) :
    ∀ acc : String, acc ≠ "" → t.foldl joinPathAcc acc = joinSlash (acc :: t) := by
  induction t with
  | nil => intro acc h; simp [joinSlash]
  | cons s t2 ih =>
    intro acc h
    rw [List.foldl_cons, joinPathAcc_of_ne s h, ih _ (append_slash_ne_empty acc s),
      joinSlash_cons_append]
    rfl

/-- On a normalized path the JS accumulation agrees with removing the final
    slash-separated segment. -/
theorem attachKey_eq_parentPathOf {path : String} (h : goodPath path = true) :
    attachKey path = parentPathOf path := by
  rw [attachKey, parentPathOf]
  rcases hp : (jsSplitSlash path).dropLast with _ | ⟨hh, tt⟩
  · rfl
  · have hne : hh ≠ "" := by
      rw [goodPath, hp] at h
      simpa using h
    rw [List.foldl_cons, joinPathAcc_empty_left, foldl_joinPathAcc_of_ne _ _ hne]

/-! ## Split parts are slash-free -/

theorem splitSlash_ne_nil : ∀ l : List Char, splitSlash l ≠ []
  | [], h => by cases h
  | c :: cs, h => by
    rcases hs : splitSlash cs with _ | ⟨x, xs⟩
    · exact splitSlash_ne_nil cs hs
    · simp only [splitSlash, hs] at h
      by_cases hc : c = '/' <;> simp [hc] at h

theorem splitSlash_no_slash : ∀ (l : List Char), ∀ part ∈ splitSlash l, '/' ∉ part
  | [], part, hp => by
    rw [splitSlash] at hp
    simp at hp
    subst hp
    simp
  | c :: cs, part, hp => by
    rcases hs : splitSlash cs with _ | ⟨x, xs⟩
    · exact absurd hs (splitSlash_ne_nil cs)
    · simp only [splitSlash, hs] at hp
      by_cases hc : c = '/'
      · rw [if_pos hc] at hp
        rcases List.mem_cons.mp hp with hp2 | hp2
        · subst hp2; simp
        · exact splitSlash_no_slash cs part (hs ▸ hp2)
      · rw [if_neg hc] at hp
        rcases List.mem_cons.mp hp with hp2 | hp2
        · subst hp2
          intro hmem
          rcases List.mem_cons.mp hmem with hmem2 | hmem2
          · exact hc hmem2.symm
          · exact splitSlash_no_slash cs x (hs ▸ List.mem_cons_self x xs) hmem2
        · exact splitSlash_no_slash cs part (hs ▸ List.mem_cons_of_mem x hp2)

theorem jsSplitSlash_no_slash (s : String) : ∀ part ∈ jsSplitSlash s, '/' ∉ part.data := by
  intro part hp
  rw [jsSplitSlash] at hp
  obtain ⟨pl, hpl, rfl⟩ := List.mem_map.mp hp
  exact splitSlash_no_slash s.data pl hpl

/-! ## Preservation combinators -/

theorem preservesNode_refl (m : FolderMap) : preservesNode m m :=
  fun _ nd h => ⟨nd, h, rfl, rfl, rfl, rfl, rfl, fun _ hq => hq⟩

theorem preservesNode_trans {a b c : FolderMap} (h1 : preservesNode a b)
    (h2 : preservesNode b c) : preservesNode a c := by
  intro p nd h
  obtain ⟨nd1, hf1, e1, e2, e3, e4, e5, hc1⟩ := h1 p nd h
  obtain ⟨nd2, hf2, f1, f2, f3, f4, f5, hc2⟩ := h2 p nd1 hf1
  exact ⟨nd2, hf2, f1.trans e1, f2.trans e2, f3.trans e3, f4.trans e4, f5.trans e5,
    fun q hq => hc2 q (hc1 q hq)⟩

theorem freshEmpty_refl (m : FolderMap) : freshEmpty m m := by
  intro p nd2 h2 h1
  rw [h1] at h2
  cases h2

theorem freshEmpty_comp {a b c : FolderMap} (h1 : freshEmpty a b) (h2 : freshEmpty b c)
    (hp : preservesNode b c) : freshEmpty a c := by
  intro p nd2 hc ha
  rcases hb : findNode b p with _ | nd1
  · exact h2 p nd2 hc hb
  · obtain ⟨nd2b, hf2, _, _, e3, e4, _, _⟩ := hp p nd1 hb
    rw [hc] at hf2
    cases hf2
    have := h1 p nd1 hb ha
    exact ⟨e3.trans this.1, e4.trans this.2⟩

theorem preservesNode_isSome {a b : FolderMap} (h : preservesNode a b) (p : String)
    (hp : (findNode a p).isSome) : (findNode b p).isSome := by
  rcases ha : findNode a p with _ | nd
  · rw [ha] at hp; cases hp
  · obtain ⟨nd2, hf2, _⟩ := h p nd ha
    rw [hf2]; rfl

theorem nodup_append_singleton {l : List String} {a : String} (hl : l.Nodup) (ha : a ∉ l) :
    (l ++ [a]).Nodup := by
  rw [List.nodup_append]
  exact ⟨hl, List.nodup_singleton a, by simpa using ha⟩

/-! ## Store surgery lemmas: the three mutations of the builder -/

theorem isSome_findNode_append {m : FolderMap} (kv : String × NodeData) {x : String}
    (hx : (findNode m x).isSome) : (findNode (m ++ [kv]) x).isSome := by
  rcases h2 : findNode m x with _ | nd
  · rw [h2] at hx; cases hx
  · rw [findNode_append, h2]; rfl

theorem append_fresh_spec (m : FolderMap) (k nm : String) (ex : Bool)
    (hk : findNode m k = none) (h : mapOK m) :
    mapOK (m ++ [(k, ⟨nm, k, [], [], [], ex⟩)]) ∧
    preservesNode m (m ++ [(k, ⟨nm, k, [], [], [], ex⟩)]) ∧
    freshEmpty m (m ++ [(k, ⟨nm, k, [], [], [], ex⟩)]) ∧
    findNode (m ++ [(k, ⟨nm, k, [], [], [], ex⟩)]) k = some ⟨nm, k, [], [], [], ex⟩ ∧
    mapKeys (m ++ [(k, ⟨nm, k, [], [], [], ex⟩)]) = mapKeys m ++ [k] ∧
    (∀ x nd, findNode m x = some nd →
      findNode (m ++ [(k, ⟨nm, k, [], [], [], ex⟩)]) x = some nd) := by
  obtain ⟨hpath, hvid, hfile, hchreg, hchstep, hchnd, hknd⟩ := h
  have hfind : ∀ x, findNode (m ++ [(k, ⟨nm, k, [], [], [], ex⟩)]) x =
      match findNode m x with
      | some nd => some nd
      | none => if k = x then some ⟨nm, k, [], [], [], ex⟩ else none := by
    intro x
    rw [findNode_append]
    cases hfx : findNode m x
    · by_cases hkx : k = x <;> simp [findNode, hkx]
    · rfl
  have hfold : ∀ x nd, findNode m x = some nd →
      findNode (m ++ [(k, ⟨nm, k, [], [], [], ex⟩)]) x = some nd := by
    intro x nd hx
    rw [hfind, hx]
  have hfnew : findNode (m ++ [(k, ⟨nm, k, [], [], [], ex⟩)]) k =
      some ⟨nm, k, [], [], [], ex⟩ := by
    rw [hfind, hk]
    simp
  have hmono : ∀ x, (findNode m x).isSome →
      (findNode (m ++ [(k, ⟨nm, k, [], [], [], ex⟩)]) x).isSome :=
    fun x hx => isSome_findNode_append _ hx
  have hinv2 : ∀ x nd, findNode (m ++ [(k, ⟨nm, k, [], [], [], ex⟩)]) x = some nd →
      findNode m x = some nd ∨ (x = k ∧ nd = ⟨nm, k, [], [], [], ex⟩) := by
    intro x nd hx
    rw [hfind] at hx
    rcases hfx : findNode m x with _ | nd1
    · rw [hfx] at hx
      by_cases hkx : k = x
      · rw [if_pos hkx] at hx
        cases hx
        exact Or.inr ⟨hkx.symm, rfl⟩
      · rw [if_neg hkx] at hx
        cases hx
    · rw [hfx] at hx
      exact Or.inl hx
  have hkeys : mapKeys (m ++ [(k, ⟨nm, k, [], [], [], ex⟩)]) = mapKeys m ++ [k] := by
    rw [mapKeys_append]
    rfl
  refine ⟨⟨?_, ?_, ?_, ?_, ?_, ?_, ?_⟩, ?_, ?_, hfnew, hkeys, hfold⟩
  · intro p nd hp
    rcases hinv2 p nd hp with hold | ⟨rfl, rfl⟩
    · exact hpath p nd hold
    · rfl
  · intro p nd hp
    rcases hinv2 p nd hp with hold | ⟨rfl, rfl⟩
    · exact hvid p nd hold
    · rfl
  · intro p nd hp
    rcases hinv2 p nd hp with hold | ⟨rfl, rfl⟩
    · exact hfile p nd hold
    · intro it hit
      cases hit
  · intro p nd hp
    rcases hinv2 p nd hp with hold | ⟨rfl, rfl⟩
    · intro q hq
      exact hmono q (hchreg p nd hold q hq)
    · intro q hq
      cases hq
  · intro p nd hp
    rcases hinv2 p nd hp with hold | ⟨rfl, rfl⟩
    · exact hchstep p nd hold
    · intro q hq
      cases hq
  · intro p nd hp
    rcases hinv2 p nd hp with hold | ⟨rfl, rfl⟩
    · exact hchnd p nd hold
    · exact List.nodup_nil
  · show (mapKeys (m ++ [(k, ⟨nm, k, [], [], [], ex⟩)])).Nodup
    rw [hkeys]
    exact nodup_append_singleton hknd ((findNode_eq_none_iff m k).mp hk)
  · intro p nd hp
    exact ⟨nd, hfold p nd hp, rfl, rfl, rfl, rfl, rfl, fun q hq => hq⟩
  · intro p nd2 h2 h1
    rcases hinv2 p nd2 h2 with hold | ⟨rfl, rfl⟩
    · rw [h1] at hold
      cases hold
    · exact ⟨rfl, rfl⟩

theorem pushChild_spec (m : FolderMap) (pp cp s : String)
    (hpp : (findNode m pp).isSome) (hcpreg : (findNode m cp).isSome)
    (hslash : '/' ∉ s.data) (heq : cp = joinPathAcc pp s) (hne : cp ≠ pp)
    (hnc : ∀ nd, findNode m pp = some nd → cp ∉ nd.childPaths)
    (h : mapOK m) :
    mapOK (updateNode m pp (pushChild cp)) ∧
    preservesNode m (updateNode m pp (pushChild cp)) ∧
    freshEmpty m (updateNode m pp (pushChild cp)) ∧
    (∀ x, (findNode (updateNode m pp (pushChild cp)) x).isSome = (findNode m x).isSome) := by
  obtain ⟨hpath, hvid, hfile, hchreg, hchstep, hchnd, hknd⟩ := h
  have hiso : ∀ x, (findNode (updateNode m pp (pushChild cp)) x).isSome =
      (findNode m x).isSome := fun x => findNode_update_isSome m pp (pushChild cp) x
  have hcases : ∀ p nd, findNode (updateNode m pp (pushChild cp)) p = some nd →
      (p ≠ pp ∧ findNode m p = some nd) ∨
      (p = pp ∧ ∃ ndp, findNode m pp = some ndp ∧ nd = pushChild cp ndp) := by
    intro p nd hp
    rw [findNode_update] at hp
    by_cases hppx : p = pp
    · rw [if_pos hppx] at hp
      subst hppx
      rcases hfx : findNode m p with _ | ndp
      · rw [hfx] at hp
        cases hp
      · rw [hfx] at hp
        cases hp
        exact Or.inr ⟨rfl, ndp, rfl, rfl⟩
    · rw [if_neg hppx] at hp
      exact Or.inl ⟨hppx, hp⟩
  refine ⟨⟨?_, ?_, ?_, ?_, ?_, ?_, ?_⟩, ?_, ?_, hiso⟩
  · intro p nd hp
    rcases hcases p nd hp with ⟨_, hold⟩ | ⟨rfl, ndp, hfp, rfl⟩
    · exact hpath p nd hold
    · exact hpath p ndp hfp
  · intro p nd hp
    rcases hcases p nd hp with ⟨_, hold⟩ | ⟨rfl, ndp, hfp, rfl⟩
    · exact hvid p nd hold
    · exact hvid p ndp hfp
  · intro p nd hp
    rcases hcases p nd hp with ⟨_, hold⟩ | ⟨rfl, ndp, hfp, rfl⟩
    · exact hfile p nd hold
    · exact hfile p ndp hfp
  · intro p nd hp
    rcases hcases p nd hp with ⟨_, hold⟩ | ⟨rfl, ndp, hfp, rfl⟩
    · intro q hq
      rw [hiso q]
      exact hchreg p nd hold q hq
    · intro q hq
      rw [hiso q]
      rcases List.mem_append.mp hq with hq2 | hq2
      · exact hchreg p ndp hfp q hq2
      · rw [List.mem_singleton.mp hq2]
        exact hcpreg
  · intro p nd hp
    rcases hcases p nd hp with ⟨_, hold⟩ | ⟨rfl, ndp, hfp, rfl⟩
    · exact hchstep p nd hold
    · intro q hq
      rcases List.mem_append.mp hq with hq2 | hq2
      · exact hchstep p ndp hfp q hq2
      · rw [List.mem_singleton.mp hq2]
        exact ⟨s, hslash, heq, hne⟩
  · intro p nd hp
    rcases hcases p nd hp with ⟨_, hold⟩ | ⟨rfl, ndp, hfp, rfl⟩
    · exact hchnd p nd hold
    · exact nodup_append_singleton (hchnd p ndp hfp) (hnc ndp hfp)
  · rw [show keysNodup (updateNode m pp (pushChild cp)) =
      ((mapKeys (updateNode m pp (pushChild cp))).Nodup : Prop) from rfl,
      mapKeys_update]
    exact hknd
  · intro p nd hp
    rw [findNode_update]
    by_cases hppx : p = pp
    · subst hppx
      rw [if_pos rfl, hp]
      exact ⟨pushChild cp nd, rfl, rfl, rfl, rfl, rfl, rfl,
        fun q hq => List.mem_append_left _ hq⟩
    · rw [if_neg hppx]
      exact ⟨nd, hp, rfl, rfl, rfl, rfl, rfl, fun q hq => hq⟩
  · intro p nd2 h2 h1
    rcases hcases p nd2 h2 with ⟨_, hold⟩ | ⟨rfl, ndp, hfp, rfl⟩
    · rw [h1] at hold
      cases hold
    · rw [h1] at hfp
      cases hfp

theorem addFile_spec (m : FolderMap) (k : String) (it : FileItem)
    (hkey : attachKey it.path = k) (h : mapOK m) :
    mapOK (updateNode m k (addFileToNode it)) ∧
    (∀ x, (findNode (updateNode m k (addFileToNode it)) x).isSome = (findNode m x).isSome) := by
  obtain ⟨hpath, hvid, hfile, hchreg, hchstep, hchnd, hknd⟩ := h
  have hiso : ∀ x, (findNode (updateNode m k (addFileToNode it)) x).isSome =
      (findNode m x).isSome := fun x => findNode_update_isSome m k (addFileToNode it) x
  have hcases : ∀ p nd, findNode (updateNode m k (addFileToNode it)) p = some nd →
      (p ≠ k ∧ findNode m p = some nd) ∨
      (p = k ∧ ∃ ndp, findNode m k = some ndp ∧ nd = addFileToNode it ndp) := by
    intro p nd hp
    rw [findNode_update] at hp
    by_cases hkx : p = k
    · rw [if_pos hkx] at hp
      subst hkx
      rcases hfx : findNode m p with _ | ndp
      · rw [hfx] at hp
        cases hp
      · rw [hfx] at hp
        cases hp
        exact Or.inr ⟨rfl, ndp, rfl, rfl⟩
    · rw [if_neg hkx] at hp
      exact Or.inl ⟨hkx, hp⟩
  refine ⟨⟨?_, ?_, ?_, ?_, ?_, ?_, ?_⟩, hiso⟩
  · intro p nd hp
    rcases hcases p nd hp with ⟨_, hold⟩ | ⟨rfl, ndp, hfp, rfl⟩
    · exact hpath p nd hold
    · exact hpath p ndp hfp
  · intro p nd hp
    rcases hcases p nd hp with ⟨_, hold⟩ | ⟨rfl, ndp, hfp, rfl⟩
    · exact hvid p nd hold
    · have hv := hvid p ndp hfp
      rw [addFileToNode]
      by_cases hvq : it.isVideo
      · simp only [hvq, if_true]
        rw [List.filter_append, List.map_append, ← hv]
        simp [hvq]
      · simp only [hvq, if_false]
        rw [List.filter_append, List.map_append, ← hv]
        simp [hvq]
  · intro p nd hp
    rcases hcases p nd hp with ⟨_, hold⟩ | ⟨rfl, ndp, hfp, rfl⟩
    · exact hfile p nd hold
    · intro it2 hit2
      rcases List.mem_append.mp hit2 with h2 | h2
      · exact hfile p ndp hfp it2 h2
      · rw [List.mem_singleton.mp h2]
        exact hkey
  · intro p nd hp
    rcases hcases p nd hp with ⟨_, hold⟩ | ⟨rfl, ndp, hfp, rfl⟩
    · intro q hq
      rw [hiso q]
      exact hchreg p nd hold q hq
    · intro q hq
      rw [hiso q]
      exact hchreg p ndp hfp q hq
  · intro p nd hp
    rcases hcases p nd hp with ⟨_, hold⟩ | ⟨rfl, ndp, hfp, rfl⟩
    · exact hchstep p nd hold
    · exact hchstep p ndp hfp
  · intro p nd hp
    rcases hcases p nd hp with ⟨_, hold⟩ | ⟨rfl, ndp, hfp, rfl⟩
    · exact hchnd p nd hold
    · exact hchnd p ndp hfp
  · rw [show keysNodup (updateNode m k (addFileToNode it)) =
      ((mapKeys (updateNode m k (addFileToNode it))).Nodup : Prop) from rfl,
      mapKeys_update]
    exact hknd

/-! ## The walk step preserves the invariants -/

theorem walkStep_spec (ws : WalkState) (folderName : String)
    (hs : '/' ∉ folderName.data) (hinv : WalkInv ws) :
    WalkInv (walkStep ws folderName) ∧
    (walkStep ws folderName).currentPath = joinPathAcc ws.currentPath folderName ∧
    (walkStep ws folderName).currentParent = some (joinPathAcc ws.currentPath folderName) ∧
    preservesNode ws.map (walkStep ws folderName).map ∧
    freshEmpty ws.map (walkStep ws folderName).map ∧
    (∃ nr, (walkStep ws folderName).roots = ws.roots ++ nr) := by
  obtain ⟨hmapok, hroots, hnone, hsome⟩ := hinv
  by_cases hex : (findNode ws.map (joinPathAcc ws.currentPath folderName)).isSome
  · have hstep : walkStep ws folderName =
        ⟨ws.map, ws.roots, joinPathAcc ws.currentPath folderName,
          some (joinPathAcc ws.currentPath folderName)⟩ := by
      simp [walkStep, hex]
    rw [hstep]
    refine ⟨⟨hmapok, hroots, ?_, ?_⟩, rfl, rfl, preservesNode_refl _, freshEmpty_refl _,
      ⟨[], (List.append_nil _).symm⟩⟩
    · intro h
      cases h
    · intro p hp
      cases hp
      exact ⟨rfl, hex⟩
  · have hnonef : findNode ws.map (joinPathAcc ws.currentPath folderName) = none :=
      Option.not_isSome_iff_eq_none.mp hex
    rcases hpar : ws.currentParent with _ | pp
    · -- no current parent: first segment, new node becomes a forest root
      have hempty : ws.currentPath = "" := hnone hpar
      have hcp : joinPathAcc ws.currentPath folderName = folderName := by
        rw [hempty, joinPathAcc_empty_left]
      have hnonef2 : findNode ws.map folderName = none := by
        rw [← hcp]
        exact hnonef
      have hstep : walkStep ws folderName =
          ⟨ws.map ++ [(folderName, ⟨folderName, folderName, [], [], [], false⟩)],
            ws.roots ++ [folderName], folderName, some folderName⟩ := by
        simp [walkStep, hempty, joinPathAcc_empty_left, hnonef2, hpar]
      obtain ⟨hok2, hpres, hfresh, hfnew, hkeys, hfold⟩ :=
        append_fresh_spec ws.map folderName folderName false hnonef2 hmapok
      rw [hstep, hcp]
      refine ⟨⟨hok2, ?_, ?_, ?_⟩, rfl, rfl, ?_, ?_, ⟨[folderName], rfl⟩⟩
      · intro p hp
        rcases List.mem_append.mp hp with h2 | h2
        · exact preservesNode_isSome hpres p (hroots p h2)
        · rw [List.mem_singleton.mp h2, hfnew]
          rfl
      · intro h
        cases h
      · intro p hp
        cases hp
        exact ⟨rfl, by rw [hfnew]; rfl⟩
      · exact hpres
      · exact hfresh
    · -- current parent exists: new node is linked as its child
      obtain ⟨hppeq, hppreg⟩ := hsome pp hpar
      have hstep : walkStep ws folderName =
          ⟨updateNode
              (ws.map ++ [(joinPathAcc ws.currentPath folderName,
                ⟨folderName, joinPathAcc ws.currentPath folderName, [], [], [], false⟩)])
              pp (pushChild (joinPathAcc ws.currentPath folderName)),
            ws.roots, joinPathAcc ws.currentPath folderName,
            some (joinPathAcc ws.currentPath folderName)⟩ := by
        simp [walkStep, hnonef, hpar]
      obtain ⟨hok1, hpres1, hfresh1, hfnew, hkeys, hfold⟩ :=
        append_fresh_spec ws.map (joinPathAcc ws.currentPath folderName) folderName false
          hnonef hmapok
      have hne : joinPathAcc ws.currentPath folderName ≠ pp := by
        intro h
        rw [← h] at hppreg
        rw [hnonef] at hppreg
        cases hppreg
      have hppreg1 : (findNode (ws.map ++ [(joinPathAcc ws.currentPath folderName,
          ⟨folderName, joinPathAcc ws.currentPath folderName, [], [], [], false⟩)]) pp).isSome :=
        isSome_findNode_append _ hppreg
      have hnc : ∀ nd, findNode (ws.map ++ [(joinPathAcc ws.currentPath folderName,
          ⟨folderName, joinPathAcc ws.currentPath folderName, [], [], [], false⟩)]) pp =
          some nd → joinPathAcc ws.currentPath folderName ∉ nd.childPaths := by
        intro nd hnd hmem
        rcases hold : findNode ws.map pp with _ | ndpp
        · rw [hold] at hppreg
          cases hppreg
        · have := hfold pp ndpp hold
          rw [hnd] at this
          cases this
          have hreg := hmapok.2.2.2.1 pp nd hold _ hmem
          rw [hnonef] at hreg
          cases hreg
      obtain ⟨hok2, hpres2, hfresh2, hiso2⟩ :=
        pushChild_spec _ pp (joinPathAcc ws.currentPath folderName) folderName hppreg1 (by
          rw [hfnew]; rfl) hs (by rw [hppeq]) hne hnc hok1
      rw [hstep]
      refine ⟨⟨hok2, ?_, ?_, ?_⟩, rfl, rfl,
        preservesNode_trans hpres1 hpres2, freshEmpty_comp hfresh1 hfresh2 hpres2, ⟨[], (List.append_nil _).symm⟩⟩
      · intro p hp
        rw [hiso2 p]
        exact isSome_findNode_append _ (hroots p hp)
      · intro h
        cases h
      · intro p hp
        cases hp
        refine ⟨rfl, ?_⟩
        rw [hiso2, hfnew]
        rfl

theorem walk_foldl_spec (parts : List String) :
    ∀ ws : WalkState, (∀ s ∈ parts, '/' ∉ s.data) → WalkInv ws →
      WalkInv (parts.foldl walkStep ws) ∧
      (parts.foldl walkStep ws).currentPath = parts.foldl joinPathAcc ws.currentPath ∧
      (parts ≠ [] → (parts.foldl walkStep ws).currentParent =
        some (parts.foldl walkStep ws).currentPath) ∧
      preservesNode ws.map (parts.foldl walkStep ws).map ∧
      freshEmpty ws.map (parts.foldl walkStep ws).map ∧
      (∃ nr, (parts.foldl walkStep ws).roots = ws.roots ++ nr) := by
  induction parts with
  | nil =>
    intro ws _ hinv
    exact ⟨hinv, rfl, fun h => absurd rfl h, preservesNode_refl _, freshEmpty_refl _,
      ⟨[], (List.append_nil _).symm⟩⟩
  | cons s rest ih =>
    intro ws hsl hinv
    have hs : '/' ∉ s.data := hsl s (List.mem_cons_self s rest)
    obtain ⟨hinv1, hcp1, hpar1, hpres1, hfresh1, nr1, hroots1⟩ :=
      walkStep_spec ws s hs hinv
    obtain ⟨hinv2, hcp2, hpar2, hpres2, hfresh2, nr2, hroots2⟩ :=
      ih (walkStep ws s) (fun x hx => hsl x (List.mem_cons_of_mem s hx)) hinv1
    rw [List.foldl_cons, List.foldl_cons]
    refine ⟨hinv2, by rw [hcp2, hcp1], ?_, preservesNode_trans hpres1 hpres2,
      freshEmpty_comp hfresh1 hfresh2 hpres2, ⟨nr1 ++ nr2, ?_⟩⟩
    · intro _
      cases rest with
      | nil =>
        simp only [List.foldl_nil]
        rw [hpar1, hcp1]
      | cons x xs => exact hpar2 (by intro h; cases h)
    · rw [hroots2, hroots1, List.append_assoc]

/-- getRootFolder preserves the invariants and registers the root sentinel. -/
theorem getRootFolder_spec (st : BuildState) (hok : mapOK st.map)
    (hroots : rootsRegistered st) :
    mapOK (getRootFolder st).map ∧ rootsRegistered (getRootFolder st) ∧
    (findNode (getRootFolder st).map "").isSome ∧
    preservesNode st.map (getRootFolder st).map ∧
    freshEmpty st.map (getRootFolder st).map := by
  rw [getRootFolder]
  by_cases hex : (findNode st.map "").isSome
  · rw [if_pos hex]
    exact ⟨hok, hroots, hex, preservesNode_refl _, freshEmpty_refl _⟩
  · rw [if_neg hex]
    have hnonef : findNode st.map "" = none := Option.not_isSome_iff_eq_none.mp hex
    obtain ⟨hok2, hpres, hfresh, hfnew, hkeys, hfold⟩ :=
      append_fresh_spec st.map "" "根目录" true hnonef hok
    refine ⟨hok2, ?_, ?_, hpres, hfresh⟩
    · intro p hp
      have hp2 : p ∈ st.roots ++ [""] := hp
      show (findNode (st.map ++ [("", (⟨"根目录", "", [], [], [], true⟩ : NodeData))]) p).isSome = true
      rcases List.mem_append.mp hp2 with h2 | h2
      · exact preservesNode_isSome hpres p (hroots p h2)
      · rw [List.mem_singleton.mp h2, hfnew]
        rfl
    · show (findNode (st.map ++ [("", (⟨"根目录", "", [], [], [], true⟩ : NodeData))]) "").isSome = true
      rw [hfnew]
      rfl

theorem processFile_spec (st : BuildState) (it : FileItem) (hok : mapOK st.map)
    (hroots : rootsRegistered st) :
    mapOK (processFile st it).map ∧ rootsRegistered (processFile st it) := by
  simp only [processFile]
  by_cases hempty : ((jsSplitSlash it.path).dropLast).isEmpty
  · rw [if_pos hempty]
    obtain ⟨hok1, hroots1, hreg1, hpres1, hfresh1⟩ := getRootFolder_spec st hok hroots
    have hkey : attachKey it.path = "" := by
      rw [attachKey, List.isEmpty_iff.mp hempty]
      rfl
    obtain ⟨hok2, hiso2⟩ := addFile_spec (getRootFolder st).map "" it hkey hok1
    refine ⟨hok2, ?_⟩
    intro p hp
    rw [hiso2 p]
    exact hroots1 p hp
  · rw [if_neg hempty]
    have hsl : ∀ s ∈ (jsSplitSlash it.path).dropLast, '/' ∉ s.data := by
      intro s hsm
      exact jsSplitSlash_no_slash it.path s ((List.dropLast_sublist _).subset hsm)
    have hinv0 : WalkInv ⟨st.map, st.roots, "", none⟩ :=
      ⟨hok, hroots, fun _ => rfl, fun p hp => by cases hp⟩
    obtain ⟨hinv2, hcp2, hpar2, hpres2, hfresh2, nr2, hroots2⟩ :=
      walk_foldl_spec ((jsSplitSlash it.path).dropLast) ⟨st.map, st.roots, "", none⟩ hsl hinv0
    set ws2 := ((jsSplitSlash it.path).dropLast).foldl walkStep ⟨st.map, st.roots, "", none⟩
    have hparne : (jsSplitSlash it.path).dropLast ≠ [] := by
      intro h
      rw [h] at hempty
      exact hempty rfl
    have hpar3 := hpar2 hparne
    rw [hpar3]
    obtain ⟨hok3, hroots3, hnone3, hsome3⟩ := hinv2
    obtain ⟨hpeq, hpreg⟩ := hsome3 ws2.currentPath hpar3
    have hkey : attachKey it.path = ws2.currentPath := by
      rw [attachKey, hcp2]
    obtain ⟨hok4, hiso4⟩ := addFile_spec ws2.map ws2.currentPath it hkey hok3
    refine ⟨hok4, ?_⟩
    intro p hp
    rw [hiso4 p]
    exact hroots3 p hp

theorem buildState_inv (files : List FileItem) :
    mapOK (buildState files).map ∧ rootsRegistered (buildState files) := by
  rw [buildState]
  have hgen : ∀ (fs : List FileItem) (st : BuildState), mapOK st.map → rootsRegistered st →
      mapOK (fs.foldl processFile st).map ∧ rootsRegistered (fs.foldl processFile st) := by
    intro fs
    induction fs with
    | nil => intro st h1 h2; exact ⟨h1, h2⟩
    | cons f rest ih =>
      intro st h1 h2
      obtain ⟨h3, h4⟩ := processFile_spec st f h1 h2
      rw [List.foldl_cons]
      exact ih (processFile st f) h3 h4
  apply hgen
  · exact ⟨fun p nd h => (by cases h), fun p nd h => (by cases h), fun p nd h => (by cases h),
      fun p nd h => (by cases h), fun p nd h => (by cases h), fun p nd h => (by cases h),
      List.nodup_nil⟩
  · intro p hp
    cases hp

/-! ## Traversal helper lemmas -/

theorem allNodesF_append (l1 l2 : List FolderNode) :
    allNodesF (l1 ++ l2) = allNodesF l1 ++ allNodesF l2 := by
  induction l1 with
  | nil => rw [List.nil_append, allNodesF, List.nil_append]
  | cons f fs ih => rw [List.cons_append, allNodesF, allNodesF, ih, List.append_assoc]

theorem mem_allNodesF (x : FolderNode) :
    ∀ l : List FolderNode, x ∈ allNodesF l ↔ ∃ t ∈ l, x ∈ allNodesN t := by
  intro l
  induction l with
  | nil => simp [allNodesF]
  | cons f fs ih =>
    rw [allNodesF, List.mem_append, ih]
    constructor
    · intro h
      rcases h with h | ⟨t, ht, hxt⟩
      · exact ⟨f, List.mem_cons_self f fs, h⟩
      · exact ⟨t, List.mem_cons_of_mem f ht, hxt⟩
    · intro ⟨t, ht, hxt⟩
      rcases List.mem_cons.mp ht with rfl | ht2
      · exact Or.inl hxt
      · exact Or.inr ⟨t, ht2, hxt⟩

/-! ## Transfer from the materialized forest back to the store -/

theorem materialize_allNodes (m : FolderMap) (hpath : pathsConsistent m)
    (hchreg : childrenRegistered m) :
    ∀ (fuel : Nat) (ps : List String), (∀ p ∈ ps, (findNode m p).isSome) →
      ∀ x ∈ allNodesF (ps.map (materialize m fuel)),
      ∃ nd, findNode m x.path = some nd ∧ x.name = nd.name ∧ x.videos = nd.videos ∧
        x.allFiles = some nd.allFiles := by
  intro fuel
  induction fuel with
  | zero =>
    intro ps hps x hx
    obtain ⟨t, ht, hxt⟩ := (mem_allNodesF x _).mp hx
    obtain ⟨p, hp, rfl⟩ := List.mem_map.mp ht
    have hreg := hps p hp
    rcases hfp : findNode m p with _ | nd
    · rw [hfp] at hreg
      cases hreg
    · rw [show materialize m 0 p =
        .mk nd.name nd.path [] nd.videos (some nd.allFiles) nd.isExpanded from by
        rw [materialize, hfp]] at hxt
      rw [allNodesN, allNodesF] at hxt
      rcases List.mem_cons.mp hxt with rfl | h2
      · refine ⟨nd, ?_, rfl, rfl, rfl⟩
        rw [show (FolderNode.mk nd.name nd.path [] nd.videos (some nd.allFiles)
          nd.isExpanded).path = nd.path from rfl, hpath p nd hfp]
        exact hfp
      · cases h2
  | succ fl ih =>
    intro ps hps x hx
    obtain ⟨t, ht, hxt⟩ := (mem_allNodesF x _).mp hx
    obtain ⟨p, hp, rfl⟩ := List.mem_map.mp ht
    have hreg := hps p hp
    rcases hfp : findNode m p with _ | nd
    · rw [hfp] at hreg
      cases hreg
    · rw [show materialize m (fl + 1) p =
        .mk nd.name nd.path (nd.childPaths.map (materialize m fl)) nd.videos
          (some nd.allFiles) nd.isExpanded from by
        rw [materialize, hfp]] at hxt
      rw [allNodesN] at hxt
      rcases List.mem_cons.mp hxt with rfl | h2
      · refine ⟨nd, ?_, rfl, rfl, rfl⟩
        rw [show (FolderNode.mk nd.name nd.path (nd.childPaths.map (materialize m fl))
          nd.videos (some nd.allFiles) nd.isExpanded).path = nd.path from rfl, hpath p nd hfp]
        exact hfp
      · exact ih nd.childPaths (fun q hq => hchreg p nd hfp q hq) x h2

/-- The equation of sortFolderContents without the termination scaffolding. -/
theorem sortFolderContents_eq (n p : String) (ch : List FolderNode) (vs : List VideoFile)
    (af : Option (List FileItem)) (ex : Bool) :
    sortFolderContents (.mk n p ch vs af ex) =
      .mk n p ((sortFilesByNumber FolderNode.name ch).map sortFolderContents)
        (if vs.isEmpty then vs else sortFilesByNumber VideoFile.name vs)
        (match af with
          | none => none
          | some fs => some (if fs.isEmpty then fs else sortFilesByNumber FileItem.name fs)) ex := by
  conv_lhs => rw [sortFolderContents.eq_def]
  show FolderNode.mk n p
      (((sortFilesByNumber FolderNode.name ch).attach).map (fun c => sortFolderContents c.1))
      (if vs.isEmpty then vs else sortFilesByNumber VideoFile.name vs)
      (match af with
        | none => none
        | some fs => some (if fs.isEmpty then fs else sortFilesByNumber FileItem.name fs)) ex = _
  congr 1
  exact List.attach_map_val (sortFilesByNumber FolderNode.name ch) sortFolderContents

theorem sortFolderContents_allNodes : ∀ (t : FolderNode) (x : FolderNode),
    x ∈ allNodesN (sortFolderContents t) →
    ∃ y ∈ allNodesN t, x.name = y.name ∧ x.path = y.path ∧ List.Perm x.videos y.videos ∧
      ((x.allFiles = none ∧ y.allFiles = none) ∨
        ∃ lx ly, x.allFiles = some lx ∧ y.allFiles = some ly ∧ List.Perm lx ly)
  | .mk n p ch vs af ex, x, hx => by
    rw [sortFolderContents_eq, allNodesN] at hx
    rcases List.mem_cons.mp hx with rfl | hx2
    · refine ⟨.mk n p ch vs af ex, List.mem_cons_self _ _, rfl, rfl, ?_, ?_⟩
      · show List.Perm (if vs.isEmpty then vs else sortFilesByNumber VideoFile.name vs) vs
        by_cases hv : vs.isEmpty
        · rw [if_pos hv]
        · rw [if_neg hv, sortFilesByNumber]
          exact List.mergeSort_perm vs _
      · rcases af with _ | fs
        · exact Or.inl ⟨rfl, rfl⟩
        · refine Or.inr ⟨_, fs, rfl, rfl, ?_⟩
          by_cases hf : fs.isEmpty
          · rw [if_pos hf]
          · rw [if_neg hf, sortFilesByNumber]
            exact List.mergeSort_perm fs _
    · obtain ⟨t2, ht2, hxt2⟩ := (mem_allNodesF x _).mp hx2
      obtain ⟨c, hc, rfl⟩ := List.mem_map.mp ht2
      have hcch : c ∈ ch := by
        rw [sortFilesByNumber] at hc
        exact List.mem_mergeSort.mp hc
      obtain ⟨y, hy, hrel⟩ := sortFolderContents_allNodes c x hxt2
      refine ⟨y, ?_, hrel⟩
      rw [allNodesN]
      exact List.mem_cons_of_mem _ ((mem_allNodesF y ch).mpr ⟨c, hcch, hy⟩)
termination_by t => sizeOf t
decreasing_by
  have := List.sizeOf_lt_of_mem hcch
  simp only [FolderNode.mk.sizeOf_spec]
  omega

/-- Every node of the final forest corresponds to a registered store node:
    same name and path, videos and allFiles equal up to the sort
    permutations. -/
theorem buildTree_allNodes (files : List FileItem) :
    ∀ x ∈ allNodesF (buildCompleteFolderTree files),
    ∃ nd, findNode (buildState files).map x.path = some nd ∧ x.name = nd.name ∧
      List.Perm x.videos nd.videos ∧
      (∃ lx, x.allFiles = some lx ∧ List.Perm lx nd.allFiles) := by
  intro x hx
  obtain ⟨hok, hroots⟩ := buildState_inv files
  simp only [buildCompleteFolderTree] at hx
  rw [sortFilesByNumber] at hx
  obtain ⟨t, ht, hxt⟩ := (mem_allNodesF x _).mp hx
  have ht2 := List.mem_mergeSort.mp ht
  obtain ⟨u, hu, rfl⟩ := List.mem_map.mp ht2
  obtain ⟨y, hy, hname, hpath2, hvids, haf⟩ := sortFolderContents_allNodes u x hxt
  have hyF : y ∈ allNodesF ((buildState files).roots.map
      (materialize (buildState files).map (buildState files).map.length)) :=
    (mem_allNodesF y _).mpr ⟨u, hu, hy⟩
  obtain ⟨nd, hfind, hn2, hv2, ha2⟩ :=
    materialize_allNodes (buildState files).map hok.1 hok.2.2.2.1 _ _
      (fun q hq => hroots q hq) y hyF
  refine ⟨nd, by rw [hpath2]; exact hfind, by rw [hname, hn2], by rw [← hv2]; exact hvids, ?_⟩
  rcases haf with ⟨hxn, hyn⟩ | ⟨lx, ly, hxs, hys, hperm⟩
  · rw [ha2] at hyn
    cases hyn
  · rw [ha2] at hys
    injection hys with hys2
    subst hys2
    exact ⟨lx, hxs, hperm⟩

/-! ## What one processFile call does to the file lists -/

theorem update_addFile_files (m0 m1 : FolderMap) (k : String) (it : FileItem)
    (hpres : preservesNode m0 m1) (hfresh : freshEmpty m0 m1)
    (hreg : (findNode m1 k).isSome) (hkey : k = attachKey it.path) :
    (∀ p nd2, p ≠ attachKey it.path →
      findNode (updateNode m1 k (addFileToNode it)) p = some nd2 →
      (∃ nd1, findNode m0 p = some nd1 ∧ nd2.allFiles = nd1.allFiles) ∨
      (findNode m0 p = none ∧ nd2.allFiles = [])) ∧
    (∀ nd2, findNode (updateNode m1 k (addFileToNode it)) (attachKey it.path) = some nd2 →
      nd2.allFiles = (((findNode m0 (attachKey it.path)).map NodeData.allFiles).getD []) ++ [it]) ∧
    (findNode (updateNode m1 k (addFileToNode it)) (attachKey it.path)).isSome ∧
    (∀ p, (findNode m0 p).isSome → (findNode (updateNode m1 k (addFileToNode it)) p).isSome) := by
  subst hkey
  refine ⟨?_, ?_, ?_, ?_⟩
  · intro p nd2 hpk hp
    rw [findNode_update, if_neg hpk] at hp
    rcases hf0 : findNode m0 p with _ | nd1
    · exact Or.inr ⟨rfl, (hfresh p nd2 hp hf0).2⟩
    · obtain ⟨nd2b, hf2, _, _, _, e4, _, _⟩ := hpres p nd1 hf0
      rw [hp] at hf2
      injection hf2 with hf2e
      subst hf2e
      exact Or.inl ⟨nd1, rfl, e4⟩
  · intro nd2 hp
    rw [findNode_update, if_pos rfl] at hp
    rcases hf1 : findNode m1 (attachKey it.path) with _ | ndk
    · rw [hf1] at hp
      cases hp
    · rw [hf1] at hp
      injection hp with hpe
      subst hpe
      rcases hf0 : findNode m0 (attachKey it.path) with _ | nd0
      · rw [show (addFileToNode it ndk).allFiles = ndk.allFiles ++ [it] from rfl,
          (hfresh _ ndk hf1 hf0).2]
        rfl
      · obtain ⟨nd2b, hf2, _, _, _, e4, _, _⟩ := hpres _ nd0 hf0
        rw [hf1] at hf2
        injection hf2 with hf2e
        subst hf2e
        rw [show (addFileToNode it ndk).allFiles = ndk.allFiles ++ [it] from rfl, e4]
        rfl
  · rw [findNode_update]
    rw [if_pos rfl]
    rcases hf1 : findNode m1 (attachKey it.path) with _ | ndk
    · rw [hf1] at hreg
      cases hreg
    · rfl
  · intro p hp
    rw [findNode_update_isSome]
    exact preservesNode_isSome hpres p hp

theorem processFile_files (st : BuildState) (it : FileItem) (hok : mapOK st.map)
    (hroots : rootsRegistered st) :
    (∀ p nd2, p ≠ attachKey it.path → findNode (processFile st it).map p = some nd2 →
      (∃ nd1, findNode st.map p = some nd1 ∧ nd2.allFiles = nd1.allFiles) ∨
      (findNode st.map p = none ∧ nd2.allFiles = [])) ∧
    (∀ nd2, findNode (processFile st it).map (attachKey it.path) = some nd2 →
      nd2.allFiles = (((findNode st.map (attachKey it.path)).map NodeData.allFiles).getD []) ++ [it]) ∧
    (findNode (processFile st it).map (attachKey it.path)).isSome ∧
    (∀ p, (findNode st.map p).isSome → (findNode (processFile st it).map p).isSome) := by
  simp only [processFile]
  by_cases hempty : ((jsSplitSlash it.path).dropLast).isEmpty
  · rw [if_pos hempty]
    obtain ⟨hok1, hroots1, hreg1, hpres1, hfresh1⟩ := getRootFolder_spec st hok hroots
    have hkey : ("" : String) = attachKey it.path := by
      rw [attachKey, List.isEmpty_iff.mp hempty]
      rfl
    exact update_addFile_files st.map (getRootFolder st).map "" it hpres1 hfresh1 hreg1 hkey
  · rw [if_neg hempty]
    have hsl : ∀ s ∈ (jsSplitSlash it.path).dropLast, '/' ∉ s.data := by
      intro s hsm
      exact jsSplitSlash_no_slash it.path s ((List.dropLast_sublist _).subset hsm)
    have hinv0 : WalkInv ⟨st.map, st.roots, "", none⟩ :=
      ⟨hok, hroots, fun _ => rfl, fun p hp => by cases hp⟩
    obtain ⟨hinv2, hcp2, hpar2, hpres2, hfresh2, nr2, hroots2⟩ :=
      walk_foldl_spec ((jsSplitSlash it.path).dropLast) ⟨st.map, st.roots, "", none⟩ hsl hinv0
    set ws2 := ((jsSplitSlash it.path).dropLast).foldl walkStep ⟨st.map, st.roots, "", none⟩
    have hparne : (jsSplitSlash it.path).dropLast ≠ [] := by
      intro h
      rw [h] at hempty
      exact hempty rfl
    have hpar3 := hpar2 hparne
    rw [hpar3]
    obtain ⟨hok3, hroots3, hnone3, hsome3⟩ := hinv2
    obtain ⟨hpeq, hpreg⟩ := hsome3 ws2.currentPath hpar3
    have hkey : ws2.currentPath = attachKey it.path := by
      rw [attachKey]
      exact hcp2
    exact update_addFile_files st.map ws2.map ws2.currentPath it hpres2 hfresh2 hpreg hkey

/-- After the whole batch every registered node holds exactly the batch files
    whose attach key is its path, in batch order, and the attach key of every
    batch file is registered. -/
theorem buildState_files (files : List FileItem) :
    (∀ p nd, findNode (buildState files).map p = some nd →
      nd.allFiles = files.filter (fun it2 => attachKey it2.path = p)) ∧
    (∀ it2 ∈ files, (findNode (buildState files).map (attachKey it2.path)).isSome) := by
  rw [buildState]
  suffices hgen : ∀ (fs : List FileItem) (st : BuildState) (F : List FileItem),
      mapOK st.map → rootsRegistered st →
      (∀ p nd, findNode st.map p = some nd →
        nd.allFiles = F.filter (fun it2 => attachKey it2.path = p)) →
      (∀ it2 ∈ F, (findNode st.map (attachKey it2.path)).isSome) →
      (∀ p nd, findNode (fs.foldl processFile st).map p = some nd →
        nd.allFiles = (F ++ fs).filter (fun it2 => attachKey it2.path = p)) ∧
      (∀ it2 ∈ F ++ fs, (findNode (fs.foldl processFile st).map (attachKey it2.path)).isSome) by
    have hinit := hgen files ⟨[], []⟩ []
      ⟨fun p nd h => (by cases h), fun p nd h => (by cases h), fun p nd h => (by cases h),
        fun p nd h => (by cases h), fun p nd h => (by cases h), fun p nd h => (by cases h),
        List.nodup_nil⟩
      (fun p hp => (by cases hp))
      (fun p nd h => (by cases h))
      (fun it2 h => (by cases h))
    rw [List.nil_append] at hinit
    exact hinit
  intro fs
  induction fs with
  | nil =>
    intro st F h1 h2 h3 h4
    rw [List.foldl_nil, List.append_nil]
    exact ⟨h3, h4⟩
  | cons f rest ih =>
    intro st F h1 h2 h3 h4
    obtain ⟨hA, hB, hC, hD⟩ := processFile_files st f h1 h2
    obtain ⟨h1b, h2b⟩ := processFile_spec st f h1 h2
    have h3b : ∀ p nd, findNode (processFile st f).map p = some nd →
        nd.allFiles = (F ++ [f]).filter (fun it2 => attachKey it2.path = p) := by
      intro p nd hp
      rw [List.filter_append]
      by_cases hpk : p = attachKey f.path
      · subst hpk
        rw [hB nd hp]
        rcases hf1 : findNode st.map (attachKey f.path) with _ | nd1
        · have hFnil : F.filter (fun it2 => attachKey it2.path = attachKey f.path) = [] := by
            apply List.filter_eq_nil_iff.mpr
            intro it2 hit2
            intro hkey2
            have hcov := h4 it2 hit2
            rw [of_decide_eq_true hkey2, hf1] at hcov
            cases hcov
          simp [hFnil]
        · simp [h3 _ nd1 hf1]
      · rcases hA p nd hpk hp with ⟨nd1, hf1, heq⟩ | ⟨hf1, heq⟩
        · rw [heq, h3 p nd1 hf1,
            show List.filter (fun it2 => decide (attachKey it2.path = p)) [f] = [] from by
              simp [Ne.symm hpk],
            List.append_nil]
        · rw [heq]
          have hFnil : F.filter (fun it2 => attachKey it2.path = p) = [] := by
            apply List.filter_eq_nil_iff.mpr
            intro it2 hit2
            intro hkey2
            have hcov := h4 it2 hit2
            rw [of_decide_eq_true hkey2] at hcov
            rw [hf1] at hcov
            cases hcov
          rw [hFnil,
            show List.filter (fun it2 => decide (attachKey it2.path = p)) [f] = [] from by
              simp [Ne.symm hpk]]
          rfl
    have h4b : ∀ it2 ∈ F ++ [f], (findNode (processFile st f).map (attachKey it2.path)).isSome := by
      intro it2 hit2
      rcases List.mem_append.mp hit2 with h | h
      · exact hD _ (h4 it2 h)
      · rw [List.mem_singleton.mp h]
        exact hC
    have hmain := ih (processFile st f) (F ++ [f]) h1b h2b h3b h4b
    rw [List.foldl_cons]
    constructor
    · intro p nd hp
      rw [show F ++ f :: rest = (F ++ [f]) ++ rest from by simp]
      exact hmain.1 p nd hp
    · intro it2 hit2
      apply hmain.2
      rw [show (F ++ [f]) ++ rest = F ++ f :: rest from by simp]
      exact hit2

/-! ## Claim C7: files sit under their parent path -/

/-- C7 (amended): for batches of normalized paths (no empty first folder
segment, in particular no leading slash), every file entry of every folder
node of the built forest sits in the node whose path is the entry path with
its final slash-separated segment removed. -/
theorem file_under_parentPath (files : List FileItem)
    (hgood : ∀ it ∈ files, goodPath it.path = true) :
    ∀ x ∈ allNodesF (buildCompleteFolderTree files), ∀ lx, x.allFiles = some lx →
      ∀ it ∈ lx, x.path = parentPathOf it.path := by
  intro x hx lx hlx it hit
  obtain ⟨nd, hfind, hname, hvids, lx2, hlx2, hperm⟩ := buildTree_allNodes files x hx
  rw [hlx] at hlx2
  injection hlx2 with hlx2e
  subst hlx2e
  have hit2 : it ∈ nd.allFiles := hperm.subset hit
  rw [(buildState_files files).1 x.path nd hfind] at hit2
  obtain ⟨hitF, hkeyd⟩ := List.mem_filter.mp hit2
  rw [← of_decide_eq_true hkeyd, attachKey_eq_parentPathOf (hgood it hitF)]

/-- C7 counterexample: with the non-normalized path /a/x.mp4 the first
folder segment is empty, the JS accumulation collapses it, and the file
lands in the folder with path a, while the path minus its final segment
is /a. -/
theorem file_under_parentPath_counterexample :
    ∃ x ∈ allNodesF (buildCompleteFolderTree [⟨some 0, "x.mp4", "/a/x.mp4", 1, true⟩]),
      ∃ lx, x.allFiles = some lx ∧ ∃ it ∈ lx, x.path ≠ parentPathOf it.path := by
  have heval : buildCompleteFolderTree [⟨some 0, "x.mp4", "/a/x.mp4", 1, true⟩] =
      [FolderNode.mk "" ""
        [FolderNode.mk "a" "a" [] [⟨some 0, "x.mp4", "/a/x.mp4", 1⟩]
          (some [⟨some 0, "x.mp4", "/a/x.mp4", 1, true⟩]) false]
        [] (some []) false] := by
    simp only [buildCompleteFolderTree]
    rw [show List.map
        (materialize (buildState [⟨some 0, "x.mp4", "/a/x.mp4", 1, true⟩]).map
          (buildState [⟨some 0, "x.mp4", "/a/x.mp4", 1, true⟩]).map.length)
        (buildState [⟨some 0, "x.mp4", "/a/x.mp4", 1, true⟩]).roots =
      [FolderNode.mk "" ""
        [FolderNode.mk "a" "a" [] [⟨some 0, "x.mp4", "/a/x.mp4", 1⟩]
          (some [⟨some 0, "x.mp4", "/a/x.mp4", 1, true⟩]) false]
        [] (some []) false] from by rfl]
    simp [sortFolderContents_eq, sortFilesByNumber]
  refine ⟨FolderNode.mk "a" "a" [] [⟨some 0, "x.mp4", "/a/x.mp4", 1⟩]
      (some [⟨some 0, "x.mp4", "/a/x.mp4", 1, true⟩]) false, ?_,
    [⟨some 0, "x.mp4", "/a/x.mp4", 1, true⟩], rfl,
    ⟨some 0, "x.mp4", "/a/x.mp4", 1, true⟩, List.mem_cons_self _ _, ?_⟩
  · rw [heval]
    simp [allNodesF, allNodesN]
  · decide

/-- Witness for the amended C7 at a concrete normalized batch. -/
theorem file_under_parentPath_witness :
    (FolderNode.mk "A" "A" [] [⟨some 0, "a.mp4", "A/a.mp4", 1⟩]
      (some [⟨some 0, "a.mp4", "A/a.mp4", 1, true⟩]) false).path =
      parentPathOf ("A/a.mp4") := by
  have heval : buildCompleteFolderTree [⟨some 0, "a.mp4", "A/a.mp4", 1, true⟩] =
      [FolderNode.mk "A" "A" [] [⟨some 0, "a.mp4", "A/a.mp4", 1⟩]
        (some [⟨some 0, "a.mp4", "A/a.mp4", 1, true⟩]) false] := by
    simp only [buildCompleteFolderTree]
    rw [show List.map
        (materialize (buildState [⟨some 0, "a.mp4", "A/a.mp4", 1, true⟩]).map
          (buildState [⟨some 0, "a.mp4", "A/a.mp4", 1, true⟩]).map.length)
        (buildState [⟨some 0, "a.mp4", "A/a.mp4", 1, true⟩]).roots =
      [FolderNode.mk "A" "A" [] [⟨some 0, "a.mp4", "A/a.mp4", 1⟩]
        (some [⟨some 0, "a.mp4", "A/a.mp4", 1, true⟩]) false] from by rfl]
    simp [sortFolderContents_eq, sortFilesByNumber]
  exact file_under_parentPath [⟨some 0, "a.mp4", "A/a.mp4", 1, true⟩] (by decide)
    (FolderNode.mk "A" "A" [] [⟨some 0, "a.mp4", "A/a.mp4", 1⟩]
      (some [⟨some 0, "a.mp4", "A/a.mp4", 1, true⟩]) false)
    (by rw [heval]
        simp [allNodesF, allNodesN])
    [⟨some 0, "a.mp4", "A/a.mp4", 1, true⟩] rfl
    ⟨some 0, "a.mp4", "A/a.mp4", 1, true⟩ (List.mem_cons_self _ _)

/-! ## Claim C10: videos are exactly the video-tagged allFiles entries -/

/-- C10: in every folder node of the built forest the videos list matches,
as a multiset of (name, path, size) records, exactly the video-tagged
entries of the allFiles list: each side has a counterpart in the other and
the counts agree. -/
theorem videos_match_allFiles (files : List FileItem) :
    ∀ x ∈ allNodesF (buildCompleteFolderTree files), ∀ lx, x.allFiles = some lx →
      List.Perm (x.videos.map (fun v => (v.name, v.path, v.size)))
        ((lx.filter (fun it => it.isVideo)).map (fun it => (it.name, it.path, it.size))) := by
  intro x hx lx hlx
  obtain ⟨nd, hfind, hname, hvids, lx2, hlx2, hperm⟩ := buildTree_allNodes files x hx
  rw [hlx] at hlx2
  injection hlx2 with hlx2e
  subst hlx2e
  obtain ⟨hok, hroots⟩ := buildState_inv files
  have hsync := hok.2.1 x.path nd hfind
  refine (hvids.map _).trans ?_
  rw [hsync, List.map_map]
  have hfun : (fun v : VideoFile => (v.name, v.path, v.size)) ∘ videoOfItem =
      (fun it : FileItem => (it.name, it.path, it.size)) := rfl
  rw [hfun]
  exact ((hperm.filter _).map _).symm

/-- Witness for C10 at a concrete batch with one video and one other file. -/
theorem videos_match_allFiles_witness :
    List.Perm
      ((FolderNode.mk "A" "A" [] [⟨some 0, "a.mp4", "A/a.mp4", 5⟩]
        (some [⟨some 0, "a.mp4", "A/a.mp4", 5, true⟩, ⟨some 1, "b.txt", "A/b.txt", 3, false⟩])
        false).videos.map (fun v => (v.name, v.path, v.size)))
      ((([⟨some 0, "a.mp4", "A/a.mp4", 5, true⟩,
          (⟨some 1, "b.txt", "A/b.txt", 3, false⟩ : FileItem)].filter
            (fun it => it.isVideo)).map (fun it => (it.name, it.path, it.size)))) := by
  have heval : buildCompleteFolderTree
      [⟨some 0, "a.mp4", "A/a.mp4", 5, true⟩, ⟨some 1, "b.txt", "A/b.txt", 3, false⟩] =
      [FolderNode.mk "A" "A" [] [⟨some 0, "a.mp4", "A/a.mp4", 5⟩]
        (some [⟨some 0, "a.mp4", "A/a.mp4", 5, true⟩, ⟨some 1, "b.txt", "A/b.txt", 3, false⟩])
        false] := by
    simp only [buildCompleteFolderTree]
    rw [show List.map
        (materialize (buildState [⟨some 0, "a.mp4", "A/a.mp4", 5, true⟩,
            ⟨some 1, "b.txt", "A/b.txt", 3, false⟩]).map
          (buildState [⟨some 0, "a.mp4", "A/a.mp4", 5, true⟩,
            ⟨some 1, "b.txt", "A/b.txt", 3, false⟩]).map.length)
        (buildState [⟨some 0, "a.mp4", "A/a.mp4", 5, true⟩,
            ⟨some 1, "b.txt", "A/b.txt", 3, false⟩]).roots =
      [FolderNode.mk "A" "A" [] [⟨some 0, "a.mp4", "A/a.mp4", 5⟩]
        (some [⟨some 0, "a.mp4", "A/a.mp4", 5, true⟩, ⟨some 1, "b.txt", "A/b.txt", 3, false⟩])
        false] from by rfl]
    simp [sortFolderContents_eq, sortFilesByNumber,
      show fileLE FileItem.name (⟨some 0, "a.mp4", "A/a.mp4", 5, true⟩ : FileItem)
        ⟨some 1, "b.txt", "A/b.txt", 3, false⟩ = true from by decide,
      List.mergeSort, List.splitInTwo, List.splitAt, List.splitAt.go, List.merge]
  exact videos_match_allFiles
    [⟨some 0, "a.mp4", "A/a.mp4", 5, true⟩, ⟨some 1, "b.txt", "A/b.txt", 3, false⟩]
    (FolderNode.mk "A" "A" [] [⟨some 0, "a.mp4", "A/a.mp4", 5⟩]
      (some [⟨some 0, "a.mp4", "A/a.mp4", 5, true⟩, ⟨some 1, "b.txt", "A/b.txt", 3, false⟩])
      false)
    (by rw [heval]
        simp [allNodesF, allNodesN])
    [⟨some 0, "a.mp4", "A/a.mp4", 5, true⟩, ⟨some 1, "b.txt", "A/b.txt", 3, false⟩] rfl

/-! ## Split and join round trips (claims C8 and C6) -/

theorem joinChars_cons_cons (c : Char) (x : List Char) (xs : List (List Char)) :
    joinChars ((c :: x) :: xs) = c :: joinChars (x :: xs) := by
  cases xs with
  | nil => rfl
  | cons y ys => rfl

theorem joinChars_splitSlash : ∀ l : List Char, joinChars (splitSlash l) = l
  | [] => rfl
  | c :: cs => by
    rcases hs : splitSlash cs with _ | ⟨x, xs⟩
    · exact absurd hs (splitSlash_ne_nil cs)
    · have ih : joinChars (x :: xs) = cs := by
        rw [← hs]
        exact joinChars_splitSlash cs
      simp only [splitSlash, hs]
      by_cases hc : c = '/'
      · rw [if_pos hc]
        rw [show joinChars ([] :: x :: xs) = [] ++ '/' :: joinChars (x :: xs) from rfl]
        rw [ih, hc]
        rfl
      · rw [if_neg hc, joinChars_cons_cons, ih]

theorem splitSlash_append : ∀ xs ys : List Char,
    splitSlash (xs ++ '/' :: ys) = splitSlash xs ++ splitSlash ys
  | [], ys => by
    rcases hs : splitSlash ys with _ | ⟨x, xs2⟩
    · exact absurd hs (splitSlash_ne_nil ys)
    · simp [splitSlash, hs]
  | c :: cs, ys => by
    have ih := splitSlash_append cs ys
    rcases hs : splitSlash cs with _ | ⟨x, xs2⟩
    · exact absurd hs (splitSlash_ne_nil cs)
    · rcases hs2 : splitSlash (cs ++ '/' :: ys) with _ | ⟨z, zs⟩
      · exact absurd hs2 (splitSlash_ne_nil _)
      · have hzx : z = x ∧ zs = xs2 ++ splitSlash ys := by
          rw [ih, hs] at hs2
          injection hs2 with h1 h2
          exact ⟨h1.symm, h2.symm⟩
        show splitSlash (c :: (cs ++ '/' :: ys)) = splitSlash (c :: cs) ++ splitSlash ys
        simp only [splitSlash, hs2, hs]
        by_cases hc : c = '/'
        · simp [hc, hzx.1, hzx.2]
        · simp [hc, hzx.1, hzx.2]

theorem data_slash_append (a s : String) :
    (a ++ "/" ++ s).data = a.data ++ '/' :: s.data := by
  simp [String.data_append]

theorem jsSplitSlash_append (a s : String) :
    jsSplitSlash (a ++ "/" ++ s) = jsSplitSlash a ++ jsSplitSlash s := by
  rw [jsSplitSlash, jsSplitSlash, jsSplitSlash, ← List.map_append, data_slash_append,
    splitSlash_append]

theorem splitSlash_of_no_slash : ∀ l : List Char, '/' ∉ l → splitSlash l = [l]
  | [], _ => rfl
  | c :: cs, h => by
    have hc : ¬c = '/' := fun hh => h (hh ▸ List.mem_cons_self c cs)
    have ih := splitSlash_of_no_slash cs (fun hm => h (List.mem_cons_of_mem c hm))
    simp only [splitSlash, ih]
    rw [if_neg hc]

theorem string_mk_data (s : String) : String.mk s.data = s := by
  cases s
  rfl

theorem string_data_inj {a b : String} (h : a.data = b.data) : a = b := by
  rw [← string_mk_data a, ← string_mk_data b, h]

theorem jsSplitSlash_of_no_slash (s : String) (h : '/' ∉ s.data) : jsSplitSlash s = [s] := by
  rw [jsSplitSlash, splitSlash_of_no_slash s.data h]
  show [String.mk s.data] = [s]
  rw [string_mk_data]

theorem joinSlash_map_mk : ∀ ll : List (List Char),
    joinSlash (ll.map String.mk) = String.mk (joinChars ll)
  | [] => rfl
  | [x] => rfl
  | x :: y :: ys => by
    have ih := joinSlash_map_mk (y :: ys)
    show String.mk x ++ "/" ++ joinSlash ((y :: ys).map String.mk) =
      String.mk (x ++ '/' :: joinChars (y :: ys))
    rw [ih]
    apply string_data_inj
    simp [String.data_append]

theorem joinSlash_jsSplitSlash (s : String) : joinSlash (jsSplitSlash s) = s := by
  rw [jsSplitSlash, joinSlash_map_mk, joinChars_splitSlash, string_mk_data]

theorem jsSplitSlash_inj {a b : String} (h : jsSplitSlash a = jsSplitSlash b) : a = b := by
  rw [← joinSlash_jsSplitSlash a, ← joinSlash_jsSplitSlash b, h]

theorem jsSplitSlash_joinSlash : ∀ l : List String, l ≠ [] → (∀ x ∈ l, '/' ∉ x.data) →
    jsSplitSlash (joinSlash l) = l
  | [], h, _ => absurd rfl h
  | [x], _, hx => jsSplitSlash_of_no_slash x (hx x (by simp))
  | x :: y :: ys, _, hx => by
    rw [show joinSlash (x :: y :: ys) = x ++ "/" ++ joinSlash (y :: ys) from rfl,
      jsSplitSlash_append, jsSplitSlash_of_no_slash x (hx x (by simp)),
      jsSplitSlash_joinSlash (y :: ys) (by simp)
        (fun z hz => hx z (List.mem_cons_of_mem x hz))]
    rfl

theorem jsSplitSlash_ne_nil (s : String) : jsSplitSlash s ≠ [] := by
  rw [jsSplitSlash]
  intro h
  exact splitSlash_ne_nil s.data (List.map_eq_nil_iff.mp h)

/-! ## Key levels and acyclicity of the child relation -/

theorem keyLevel_of_ne {p : String} (h : p ≠ "") : keyLevel p = (jsSplitSlash p).length := by
  rw [keyLevel, if_neg h]

theorem keyLevel_pos (p : String) : 1 ≤ keyLevel p := by
  by_cases h : p = ""
  · rw [keyLevel, if_pos h]
  · rw [keyLevel_of_ne h]
    exact List.length_pos.mpr (jsSplitSlash_ne_nil p)

theorem keyLevel_append (p s : String) (hp : p ≠ "") (hs : '/' ∉ s.data) :
    keyLevel (p ++ "/" ++ s) = keyLevel p + 1 := by
  rw [keyLevel_of_ne (append_slash_ne_empty p s), keyLevel_of_ne hp, jsSplitSlash_append,
    jsSplitSlash_of_no_slash s hs, List.length_append]
  rfl

theorem parentPathOf_append (p s : String) (hs : '/' ∉ s.data) :
    parentPathOf (p ++ "/" ++ s) = p := by
  rw [parentPathOf, jsSplitSlash_append, jsSplitSlash_of_no_slash s hs,
    List.dropLast_concat, joinSlash_jsSplitSlash]

theorem childRel_measure {m : FolderMap} (hok : mapOK m) {p q : String}
    (h : childRel m p q) : acycMeasure p < acycMeasure q := by
  obtain ⟨nd, hfind, hq⟩ := h
  obtain ⟨s, hsl, hqe, hne⟩ := hok.2.2.2.2.1 p nd hfind q hq
  by_cases hp : p = ""
  · rw [hp, joinPathAcc_empty_left] at hqe
    rw [hp] at hne
    rw [hqe] at hne ⊢
    rw [acycMeasure, if_pos hp, acycMeasure, if_neg hne, jsSplitSlash_of_no_slash s hsl]
    simp
  · rw [joinPathAcc_of_ne s hp] at hqe
    subst hqe
    rw [acycMeasure, if_neg hp, acycMeasure, if_neg (append_slash_ne_empty p s),
      jsSplitSlash_append, jsSplitSlash_of_no_slash s hsl, List.length_append]
    simp

theorem transGen_childRel_measure {m : FolderMap} (hok : mapOK m) {p q : String}
    (h : Relation.TransGen (childRel m) p q) : acycMeasure p < acycMeasure q := by
  induction h with
  | single h1 => exact childRel_measure hok h1
  | tail _ h2 ih => exact lt_trans ih (childRel_measure hok h2)

theorem childRel_parent_unique {m : FolderMap} (hok : mapOK m) {p1 p2 q : String}
    (h1 : childRel m p1 q) (h2 : childRel m p2 q) : p1 = p2 := by
  obtain ⟨nd1, hf1, hq1⟩ := h1
  obtain ⟨nd2, hf2, hq2⟩ := h2
  obtain ⟨s1, hsl1, hqe1, hne1⟩ := hok.2.2.2.2.1 p1 nd1 hf1 q hq1
  obtain ⟨s2, hsl2, hqe2, hne2⟩ := hok.2.2.2.2.1 p2 nd2 hf2 q hq2
  by_cases hp1 : p1 = "" <;> by_cases hp2 : p2 = ""
  · rw [hp1, hp2]
  · exfalso
    rw [hp1, joinPathAcc_empty_left] at hqe1
    rw [joinPathAcc_of_ne s2 hp2] at hqe2
    apply hsl1
    rw [← hqe1, hqe2, data_slash_append]
    exact List.mem_append_right _ (List.mem_cons_self _ _)
  · exfalso
    rw [hp2, joinPathAcc_empty_left] at hqe2
    rw [joinPathAcc_of_ne s1 hp1] at hqe1
    apply hsl2
    rw [← hqe2, hqe1, data_slash_append]
    exact List.mem_append_right _ (List.mem_cons_self _ _)
  · rw [joinPathAcc_of_ne s1 hp1] at hqe1
    rw [joinPathAcc_of_ne s2 hp2] at hqe2
    have e1 : jsSplitSlash q = jsSplitSlash p1 ++ [s1] := by
      rw [hqe1, jsSplitSlash_append, jsSplitSlash_of_no_slash s1 hsl1]
    have e2 : jsSplitSlash q = jsSplitSlash p2 ++ [s2] := by
      rw [hqe2, jsSplitSlash_append, jsSplitSlash_of_no_slash s2 hsl2]
    have e3 : jsSplitSlash p1 ++ [s1] = jsSplitSlash p2 ++ [s2] := by rw [← e1, ← e2]
    exact jsSplitSlash_inj (List.append_inj_left' e3 rfl)

/-! ## Depth of the materialized forest -/

theorem depthN_pos (t : FolderNode) : 1 ≤ depthN t := by
  cases t with
  | mk n p ch vs af ex =>
    rw [depthN]
    omega

theorem depthF_cons (f : FolderNode) (fs : List FolderNode) :
    depthF (f :: fs) = max (depthN f) (depthF fs) := by
  rw [depthF]

theorem depthF_perm {l1 l2 : List FolderNode} (h : List.Perm l1 l2) :
    depthF l1 = depthF l2 := by
  induction h with
  | nil => rfl
  | cons x _ ih => rw [depthF_cons, depthF_cons, ih]
  | swap x y l => rw [depthF_cons, depthF_cons, depthF_cons, depthF_cons]; omega
  | trans _ _ ih1 ih2 => rw [ih1, ih2]

theorem depthN_le_depthF_of_mem {x : FolderNode} {l : List FolderNode} (h : x ∈ l) :
    depthN x ≤ depthF l := by
  induction l with
  | nil => cases h
  | cons f fs ih =>
    rw [depthF_cons]
    rcases List.mem_cons.mp h with rfl | h2
    · omega
    · have := ih h2
      omega

theorem depthF_le {l : List FolderNode} {D : Nat} (h : ∀ x ∈ l, depthN x ≤ D) :
    depthF l ≤ D := by
  induction l with
  | nil => rw [depthF]; omega
  | cons f fs ih =>
    rw [depthF_cons]
    have h1 := h f (List.mem_cons_self _ _)
    have h2 := ih (fun x hx => h x (List.mem_cons_of_mem f hx))
    omega

theorem depthF_map_congr {l : List FolderNode} {f : FolderNode → FolderNode}
    (h : ∀ c ∈ l, depthN (f c) = depthN c) : depthF (l.map f) = depthF l := by
  induction l with
  | nil => rfl
  | cons c cs ih =>
    rw [List.map_cons, depthF_cons, depthF_cons, h c (List.mem_cons_self _ _),
      ih (fun x hx => h x (List.mem_cons_of_mem c hx))]

theorem sortFolderContents_path (t : FolderNode) :
    (sortFolderContents t).path = t.path := by
  cases t with
  | mk n p ch vs af ex =>
    rw [sortFolderContents_eq]
    rfl

theorem sortFolderContents_depth : ∀ t : FolderNode, depthN (sortFolderContents t) = depthN t
  | .mk n p ch vs af ex => by
    rw [sortFolderContents_eq, depthN, depthN]
    have hperm : List.Perm (sortFilesByNumber FolderNode.name ch) ch := by
      rw [sortFilesByNumber]
      exact List.mergeSort_perm ch _
    have hcongr : depthF ((sortFilesByNumber FolderNode.name ch).map sortFolderContents) =
        depthF (sortFilesByNumber FolderNode.name ch) := by
      apply depthF_map_congr
      intro c hc
      have hcch : c ∈ ch := hperm.subset hc
      exact sortFolderContents_depth c
    rw [hcongr, depthF_perm hperm]
termination_by t => sizeOf t
decreasing_by
  have := List.sizeOf_lt_of_mem hcch
  simp only [FolderNode.mk.sizeOf_spec]
  omega

theorem buildTree_depth (files : List FileItem) :
    depthF (buildCompleteFolderTree files) =
      depthF ((buildState files).roots.map
        (materialize (buildState files).map (buildState files).map.length)) := by
  simp only [buildCompleteFolderTree]
  have hperm : List.Perm
      (sortFilesByNumber FolderNode.name
        (((buildState files).roots.map
          (materialize (buildState files).map (buildState files).map.length)).map
            sortFolderContents))
      (((buildState files).roots.map
        (materialize (buildState files).map (buildState files).map.length)).map
          sortFolderContents) := by
    rw [sortFilesByNumber]
    exact List.mergeSort_perm _ _
  rw [depthF_perm hperm]
  exact depthF_map_congr (fun c _ => sortFolderContents_depth c)

/-! ## Preservation helpers for the good-store invariants -/

theorem childRel_of_preservesNode {m m2 : FolderMap} (hpres : preservesNode m m2)
    {p q : String} (h : childRel m p q) : childRel m2 p q := by
  obtain ⟨nd, hf, hq⟩ := h
  obtain ⟨nd2, hf2, _, _, _, _, _, hc⟩ := hpres p nd hf
  exact ⟨nd2, hf2, hc q hq⟩

theorem headI_append_of_ne_nil {l : List String} (l2 : List String) (h : l ≠ []) :
    (l ++ l2).headI = l.headI := by
  cases l with
  | nil => exact absurd rfl h
  | cons x xs => rfl

theorem goodKey_append {p : String} (s : String) (hp : p ≠ "") (hgk : goodKey p)
    (hs : '/' ∉ s.data) : goodKey (p ++ "/" ++ s) := by
  intro _
  rw [jsSplitSlash_append, jsSplitSlash_of_no_slash s hs,
    headI_append_of_ne_nil _ (jsSplitSlash_ne_nil p)]
  exact hgk hp

theorem keyLevel_empty : keyLevel "" = 1 := by
  rw [keyLevel, if_pos rfl]

theorem keyLevel_no_slash {s : String} (hne : s ≠ "") (hs : '/' ∉ s.data) :
    keyLevel s = 1 := by
  rw [keyLevel_of_ne hne, jsSplitSlash_of_no_slash s hs]
  rfl

theorem goodKey_no_slash {s : String} (hs : '/' ∉ s.data) : goodKey s := by
  intro hne
  rw [jsSplitSlash_of_no_slash s hs]
  exact hne

theorem childRel_update_iff (m : FolderMap) (k : String) (f : NodeData → NodeData)
    (hch : ∀ nd, (f nd).childPaths = nd.childPaths) (p q : String) :
    childRel (updateNode m k f) p q ↔ childRel m p q := by
  constructor
  · rintro ⟨nd, hf, hq⟩
    rw [findNode_update] at hf
    by_cases hp : p = k
    · rw [if_pos hp] at hf
      rcases ho : findNode m p with _ | nd0
      · rw [ho] at hf
        cases hf
      · rw [ho] at hf
        injection hf with hf
        rw [← hf, hch] at hq
        exact ⟨nd0, ho, hq⟩
    · rw [if_neg hp] at hf
      exact ⟨nd, hf, hq⟩
  · rintro ⟨nd, hf, hq⟩
    by_cases hp : p = k
    · refine ⟨f nd, ?_, ?_⟩
      · rw [findNode_update, if_pos hp, hf]
        rfl
      · rw [hch]
        exact hq
    · refine ⟨nd, ?_, hq⟩
      rw [findNode_update, if_neg hp]
      exact hf

theorem goodStore_update_payload (m : FolderMap) (roots : List String) (k : String)
    (f : NodeData → NodeData)
    (hch : ∀ nd, (f nd).childPaths = nd.childPaths)
    (hname : ∀ nd, (f nd).name = nd.name)
    {B : Nat} {files : List FileItem} (hg : goodStore ⟨m, roots⟩ B files) :
    goodStore ⟨updateNode m k f, roots⟩ B files := by
  obtain ⟨g1, g2, g3, g4, g5, g6, g7, g8⟩ := hg
  refine ⟨?_, ?_, g3, ?_, ?_, ?_, ?_, ?_⟩
  · intro nd h
    show nd.childPaths = []
    rw [show findNode (⟨updateNode m k f, roots⟩ : BuildState).map "" =
      findNode (updateNode m k f) "" from rfl, findNode_update] at h
    by_cases hp : ("" : String) = k
    · rw [if_pos hp] at h
      rcases ho : findNode m "" with _ | nd0
      · rw [ho] at h
        cases h
      · rw [ho] at h
        injection h with h
        rw [← h, hch]
        exact g1 nd0 ho
    · rw [if_neg hp] at h
      exact g1 nd h
  · intro k2 hk2
    rw [show mapKeys (⟨updateNode m k f, roots⟩ : BuildState).map =
      mapKeys (updateNode m k f) from rfl, mapKeys_update] at hk2
    exact g2 k2 hk2
  · intro k2 hk2
    rw [show mapKeys (⟨updateNode m k f, roots⟩ : BuildState).map =
      mapKeys (updateNode m k f) from rfl, mapKeys_update] at hk2
    exact g4 k2 hk2
  · intro k2 nd h hk2
    rw [show findNode (⟨updateNode m k f, roots⟩ : BuildState).map k2 =
      findNode (updateNode m k f) k2 from rfl, findNode_update] at h
    by_cases hp : k2 = k
    · rw [if_pos hp] at h
      rcases ho : findNode m k2 with _ | nd0
      · rw [ho] at h
        cases h
      · obtain ⟨h5a, h5b⟩ := g5 k2 nd0 ho hk2
        exact ⟨h5a, fun hl =>
          (childRel_update_iff m k f hch _ _).mpr (h5b hl)⟩
    · rw [if_neg hp] at h
      obtain ⟨h5a, h5b⟩ := g5 k2 nd h hk2
      exact ⟨h5a, fun hl => (childRel_update_iff m k f hch _ _).mpr (h5b hl)⟩
  · intro h
    rw [show findNode (⟨updateNode m k f, roots⟩ : BuildState).map "" =
      findNode (updateNode m k f) "" from rfl, findNode_update_isSome] at h
    exact g6 h
  · intro k2 hk2
    rw [show mapKeys (⟨updateNode m k f, roots⟩ : BuildState).map =
      mapKeys (updateNode m k f) from rfl, mapKeys_update] at hk2
    exact g7 k2 hk2
  · intro k2 nd h
    rw [show findNode (⟨updateNode m k f, roots⟩ : BuildState).map k2 =
      findNode (updateNode m k f) k2 from rfl, findNode_update] at h
    by_cases hp : k2 = k
    · rw [if_pos hp] at h
      rcases ho : findNode m k2 with _ | nd0
      · rw [ho] at h
        cases h
      · rw [ho] at h
        injection h with h
        rw [← h, hname]
        exact g8 k2 nd0 ho
    · rw [if_neg hp] at h
      exact g8 k2 nd h

/-! ## The good-store invariant through the segment walk -/

theorem walk_good_aux (parts : List String) :
    ∀ (ws : WalkState) (B : Nat) (files : List FileItem),
      (∀ s ∈ parts, '/' ∉ s.data) → WalkInv ws →
      goodStore ⟨ws.map, ws.roots⟩ B files →
      ws.currentPath ≠ "" →
      ws.currentParent = some ws.currentPath →
      keyLevel ws.currentPath + parts.length ≤ B →
      (∀ j, j ≤ parts.length →
        keyWitness files ((parts.take j).foldl joinPathAcc ws.currentPath)) →
      goodStore ⟨(parts.foldl walkStep ws).map, (parts.foldl walkStep ws).roots⟩ B files := by
  induction parts with
  | nil =>
    intro ws B files _ _ hg _ _ _ _
    exact hg
  | cons s rest ih =>
    intro ws B files hsl hinv hg hcp hpar hlev hwit
    have hs : '/' ∉ s.data := hsl s (List.mem_cons_self s rest)
    obtain ⟨hmapok, hroots, hnone, hsome⟩ := hinv
    obtain ⟨hppeq, hppreg⟩ := hsome ws.currentPath hpar
    have hcp1ne : joinPathAcc ws.currentPath s ≠ "" := joinPathAcc_ne_empty s hcp
    have hcpeq : joinPathAcc ws.currentPath s = ws.currentPath ++ "/" ++ s :=
      joinPathAcc_of_ne s hcp
    have hlev1 : keyLevel (joinPathAcc ws.currentPath s) = keyLevel ws.currentPath + 1 := by
      rw [hcpeq]
      exact keyLevel_append _ s hcp hs
    obtain ⟨hinv1, hcp1, hpar1, hpres1, hfresh1, nr1, hroots1⟩ :=
      walkStep_spec ws s hs ⟨hmapok, hroots, hnone, hsome⟩
    rw [List.foldl_cons]
    have hwit1 : ∀ j, j ≤ rest.length →
        keyWitness files ((rest.take j).foldl joinPathAcc (walkStep ws s).currentPath) := by
      intro j hj
      have hw := hwit (j + 1) (by simpa using Nat.succ_le_succ hj)
      rw [List.take_succ_cons, List.foldl_cons] at hw
      rw [hcp1]
      exact hw
    have hlevr : keyLevel (walkStep ws s).currentPath + rest.length ≤ B := by
      rw [hcp1, hlev1]
      simp only [List.length_cons] at hlev
      omega
    have hparr : (walkStep ws s).currentParent = some (walkStep ws s).currentPath := by
      rw [hpar1, hcp1]
    have hcpner : (walkStep ws s).currentPath ≠ "" := by
      rw [hcp1]
      exact hcp1ne
    have hg1 : goodStore ⟨(walkStep ws s).map, (walkStep ws s).roots⟩ B files := by
      by_cases hex : (findNode ws.map (joinPathAcc ws.currentPath s)).isSome
      · have hstep : walkStep ws s =
            ⟨ws.map, ws.roots, joinPathAcc ws.currentPath s,
              some (joinPathAcc ws.currentPath s)⟩ := by
          simp [walkStep, hex]
        rw [hstep]
        exact hg
      · have hnonef : findNode ws.map (joinPathAcc ws.currentPath s) = none :=
          Option.not_isSome_iff_eq_none.mp hex
        obtain ⟨ndcp, hndcp⟩ := Option.isSome_iff_exists.mp hppreg
        have hstep : walkStep ws s =
            ⟨updateNode (ws.map ++ [(joinPathAcc ws.currentPath s,
                ⟨s, joinPathAcc ws.currentPath s, [], [], [], false⟩)])
              ws.currentPath (pushChild (joinPathAcc ws.currentPath s)),
              ws.roots, joinPathAcc ws.currentPath s,
              some (joinPathAcc ws.currentPath s)⟩ := by
          simp [walkStep, hnonef, hpar]
        rw [hstep]
        have hm2 : ∀ x, findNode (updateNode (ws.map ++ [(joinPathAcc ws.currentPath s,
              ⟨s, joinPathAcc ws.currentPath s, [], [], [], false⟩)])
              ws.currentPath (pushChild (joinPathAcc ws.currentPath s))) x =
            if x = ws.currentPath then some (pushChild (joinPathAcc ws.currentPath s) ndcp)
            else if x = joinPathAcc ws.currentPath s then
              some ⟨s, joinPathAcc ws.currentPath s, [], [], [], false⟩
            else findNode ws.map x := by
          intro x
          rw [findNode_update, findNode_append]
          by_cases hx1 : x = ws.currentPath
          · subst hx1
            rw [if_pos rfl, if_pos rfl, hndcp]
            rfl
          · rw [if_neg hx1, if_neg hx1]
            by_cases hx2 : x = joinPathAcc ws.currentPath s
            · subst hx2
              rw [hnonef, if_pos rfl]
              simp [findNode]
            · rw [if_neg hx2]
              rcases hfx : findNode ws.map x with _ | nd
              · simp only [findNode, if_neg (Ne.symm hx2)]
              · rfl
        have hkeys2 : mapKeys (updateNode (ws.map ++ [(joinPathAcc ws.currentPath s,
              ⟨s, joinPathAcc ws.currentPath s, [], [], [], false⟩)])
              ws.currentPath (pushChild (joinPathAcc ws.currentPath s))) =
            mapKeys ws.map ++ [joinPathAcc ws.currentPath s] := by
          rw [mapKeys_update, mapKeys_append]
          rfl
        obtain ⟨g1, g2, g3, g4, g5, g6, g7, g8⟩ := hg
        have hrelmono : ∀ p q, childRel ws.map p q →
            childRel (updateNode (ws.map ++ [(joinPathAcc ws.currentPath s,
              ⟨s, joinPathAcc ws.currentPath s, [], [], [], false⟩)])
              ws.currentPath (pushChild (joinPathAcc ws.currentPath s))) p q := by
          rintro p q ⟨nd, hf, hq⟩
          by_cases hp : p = ws.currentPath
          · subst hp
            refine ⟨pushChild (joinPathAcc ws.currentPath s) ndcp, ?_, ?_⟩
            · rw [hm2, if_pos rfl]
            · have hnd : nd = ndcp := by
                rw [hf] at hndcp
                injection hndcp
              exact List.mem_append_left _ (hnd ▸ hq)
          · refine ⟨nd, ?_, hq⟩
            rw [hm2, if_neg hp, if_neg ?_]
            · exact hf
            · intro h
              rw [h, hnonef] at hf
              cases hf
        refine ⟨?_, ?_, g3, ?_, ?_, ?_, ?_, ?_⟩
        · intro nd h
          rw [show findNode (updateNode (ws.map ++ [(joinPathAcc ws.currentPath s,
              ⟨s, joinPathAcc ws.currentPath s, [], [], [], false⟩)])
              ws.currentPath (pushChild (joinPathAcc ws.currentPath s))) "" =
            findNode ws.map "" from by
              rw [hm2, if_neg (Ne.symm hcp), if_neg (Ne.symm hcp1ne)]] at h
          exact g1 nd h
        · intro k hk
          rw [show mapKeys (updateNode (ws.map ++ [(joinPathAcc ws.currentPath s,
              ⟨s, joinPathAcc ws.currentPath s, [], [], [], false⟩)])
              ws.currentPath (pushChild (joinPathAcc ws.currentPath s))) =
            mapKeys ws.map ++ [joinPathAcc ws.currentPath s] from hkeys2] at hk
          rcases List.mem_append.mp hk with hk2 | hk2
          · exact g2 k hk2
          · rw [List.mem_singleton.mp hk2, hlev1]
            simp only [List.length_cons] at hlev
            omega
        · intro k hk
          rw [hkeys2] at hk
          rcases List.mem_append.mp hk with hk2 | hk2
          · exact g4 k hk2
          · rw [List.mem_singleton.mp hk2, hcpeq]
            exact goodKey_append s hcp (g4 _ (mem_mapKeys_of_findNode hndcp)) hs
        · intro k nd h hkne
          rw [hm2] at h
          by_cases hk1 : k = ws.currentPath
          · rw [if_pos hk1] at h
            subst hk1
            obtain ⟨h5a, h5b⟩ := g5 _ ndcp hndcp hkne
            exact ⟨h5a, fun hl => hrelmono _ _ (h5b hl)⟩
          · rw [if_neg hk1] at h
            by_cases hk2 : k = joinPathAcc ws.currentPath s
            · subst hk2
              constructor
              · intro h1
                exfalso
                have := keyLevel_pos ws.currentPath
                omega
              · intro _
                have hpp : parentPathOf (joinPathAcc ws.currentPath s) = ws.currentPath := by
                  rw [hcpeq]
                  exact parentPathOf_append _ s hs
                rw [hpp]
                refine ⟨pushChild (joinPathAcc ws.currentPath s) ndcp, ?_, ?_⟩
                · rw [hm2, if_pos rfl]
                · exact List.mem_append_right _ (List.mem_cons_self _ _)
            · rw [if_neg hk2] at h
              obtain ⟨h5a, h5b⟩ := g5 k nd h hkne
              exact ⟨h5a, fun hl => hrelmono _ _ (h5b hl)⟩
        · intro h
          rw [show findNode (updateNode (ws.map ++ [(joinPathAcc ws.currentPath s,
              ⟨s, joinPathAcc ws.currentPath s, [], [], [], false⟩)])
              ws.currentPath (pushChild (joinPathAcc ws.currentPath s))) "" =
            findNode ws.map "" from by
              rw [hm2, if_neg (Ne.symm hcp), if_neg (Ne.symm hcp1ne)]] at h
          exact g6 h
        · intro k hk
          rw [hkeys2] at hk
          rcases List.mem_append.mp hk with hk2 | hk2
          · exact g7 k hk2
          · rw [List.mem_singleton.mp hk2]
            have hw := hwit 1 (by simp)
            rw [show (s :: rest).take 1 = [s] from rfl, List.foldl_cons, List.foldl_nil] at hw
            exact hw
        · intro k nd h
          rw [hm2] at h
          by_cases hk1 : k = ws.currentPath
          · rw [if_pos hk1] at h
            injection h with h
            rw [← h]
            subst hk1
            show ndcp.name = _
            exact g8 _ ndcp hndcp
          · rw [if_neg hk1] at h
            by_cases hk2 : k = joinPathAcc ws.currentPath s
            · rw [if_pos hk2] at h
              injection h with h
              rw [← h]
              subst hk2
              show s = _
              rw [if_neg hcp1ne, hcpeq, jsSplitSlash_append, jsSplitSlash_of_no_slash s hs,
                List.getLastD_concat]
            · rw [if_neg hk2] at h
              exact g8 k nd h
    exact ih (walkStep ws s) B files (fun x hx => hsl x (List.mem_cons_of_mem s hx))
      hinv1 hg1 hcpner hparr hlevr hwit1

/-! ## The good-store invariant through one descriptor and the whole batch -/

theorem processFile_good (st : BuildState) (it : FileItem) (files : List FileItem) (B : Nat)
    (hok : mapOK st.map) (hroots : rootsRegistered st)
    (hgoodit : goodPath it.path = true) (hit : it ∈ files)
    (hg : goodStore st B files)
    (hB : max (folderSegs it.path).length 1 ≤ B) :
    goodStore (processFile st it) B files := by
  have hB1 : 1 ≤ B := le_trans (Nat.le_max_right _ 1) hB
  simp only [processFile]
  by_cases hempty : ((jsSplitSlash it.path).dropLast).isEmpty
  · rw [if_pos hempty]
    have hsegs : folderSegs it.path = [] := by
      rw [folderSegs]
      exact List.isEmpty_iff.mp hempty
    have hg1 : goodStore (getRootFolder st) B files := by
      rw [getRootFolder]
      by_cases hex : (findNode st.map "").isSome
      · rw [if_pos hex]
        exact hg
      · rw [if_neg hex]
        have hnonef : findNode st.map "" = none := Option.not_isSome_iff_eq_none.mp hex
        obtain ⟨g1, g2, g3, g4, g5, g6, g7, g8⟩ := hg
        have hm1 : ∀ x, findNode (st.map ++ [("", rootNodeData)]) x =
            if x = "" then some rootNodeData else findNode st.map x := by
          intro x
          rw [findNode_append]
          by_cases hx : x = ""
          · subst hx
            rw [hnonef, if_pos rfl]
            simp [findNode]
          · rw [if_neg hx]
            rcases hfx : findNode st.map x with _ | nd
            · simp only [findNode, if_neg (Ne.symm hx)]
            · rfl
        have hkeys1 : mapKeys (st.map ++ [("", rootNodeData)]) = mapKeys st.map ++ [""] := by
          rw [mapKeys_append]
          rfl
        have hrelmono : ∀ p q, childRel st.map p q →
            childRel (st.map ++ [("", rootNodeData)]) p q := by
          rintro p q ⟨nd, hf, hq⟩
          refine ⟨nd, ?_, hq⟩
          rw [hm1, if_neg ?_]
          · exact hf
          · intro h
            rw [h, hnonef] at hf
            cases hf
        refine ⟨?_, ?_, ?_, ?_, ?_, ?_, ?_, ?_⟩
        · intro nd h
          rw [show findNode (⟨st.map ++ [("", rootNodeData)], st.roots ++ [""]⟩ :
            BuildState).map "" = findNode (st.map ++ [("", rootNodeData)]) "" from rfl,
            hm1, if_pos rfl] at h
          have h2 := Option.some.inj h
          rw [← h2]
          rfl
        · intro k hk
          rw [show mapKeys (⟨st.map ++ [("", rootNodeData)], st.roots ++ [""]⟩ :
            BuildState).map = mapKeys (st.map ++ [("", rootNodeData)]) from rfl, hkeys1] at hk
          rcases List.mem_append.mp hk with hk2 | hk2
          · exact g2 k hk2
          · rw [List.mem_singleton.mp hk2, keyLevel_empty]
            exact hB1
        · intro r hr
          rcases List.mem_append.mp hr with hr2 | hr2
          · exact g3 r hr2
          · rw [List.mem_singleton.mp hr2]
            exact keyLevel_empty
        · intro k hk
          rw [show mapKeys (⟨st.map ++ [("", rootNodeData)], st.roots ++ [""]⟩ :
            BuildState).map = mapKeys (st.map ++ [("", rootNodeData)]) from rfl, hkeys1] at hk
          rcases List.mem_append.mp hk with hk2 | hk2
          · exact g4 k hk2
          · rw [List.mem_singleton.mp hk2]
            intro h
            exact absurd rfl h
        · intro k nd h hkne
          rw [show findNode (⟨st.map ++ [("", rootNodeData)], st.roots ++ [""]⟩ :
            BuildState).map k = findNode (st.map ++ [("", rootNodeData)]) k from rfl,
            hm1, if_neg hkne] at h
          obtain ⟨h5a, h5b⟩ := g5 k nd h hkne
          exact ⟨fun hl => List.mem_append_left _ (h5a hl),
            fun hl => hrelmono _ _ (h5b hl)⟩
        · intro _
          exact List.mem_append_right _ (List.mem_cons_self _ _)
        · intro k hk
          rw [show mapKeys (⟨st.map ++ [("", rootNodeData)], st.roots ++ [""]⟩ :
            BuildState).map = mapKeys (st.map ++ [("", rootNodeData)]) from rfl, hkeys1] at hk
          rcases List.mem_append.mp hk with hk2 | hk2
          · exact g7 k hk2
          · rw [List.mem_singleton.mp hk2]
            exact Or.inl ⟨rfl, it, hit, hsegs⟩
        · intro k nd h
          rw [show findNode (⟨st.map ++ [("", rootNodeData)], st.roots ++ [""]⟩ :
            BuildState).map k = findNode (st.map ++ [("", rootNodeData)]) k from rfl,
            hm1] at h
          by_cases hx : k = ""
          · rw [if_pos hx] at h
            have h2 := Option.some.inj h
            rw [← h2, if_pos hx]
            rfl
          · rw [if_neg hx] at h
            exact g8 k nd h
    exact goodStore_update_payload (getRootFolder st).map (getRootFolder st).roots ""
      (addFileToNode it) (fun nd => rfl) (fun nd => rfl) hg1
  · rw [if_neg hempty]
    have hsl : ∀ s ∈ (jsSplitSlash it.path).dropLast, '/' ∉ s.data := by
      intro s hsm
      exact jsSplitSlash_no_slash it.path s ((List.dropLast_sublist _).subset hsm)
    have hinv0 : WalkInv ⟨st.map, st.roots, "", none⟩ :=
      ⟨hok, hroots, fun _ => rfl, fun p hp => by cases hp⟩
    obtain ⟨hinv2, hcp2, hpar2, hpres2, hfresh2, nr2, hroots2⟩ :=
      walk_foldl_spec ((jsSplitSlash it.path).dropLast) ⟨st.map, st.roots, "", none⟩ hsl hinv0
    set ws2 := ((jsSplitSlash it.path).dropLast).foldl walkStep
      ⟨st.map, st.roots, "", none⟩ with hws2
    have hparne : (jsSplitSlash it.path).dropLast ≠ [] := by
      intro h
      rw [h] at hempty
      exact hempty rfl
    have hpar3 := hpar2 hparne
    rw [hpar3]
    have hgs2 : goodStore ⟨ws2.map, ws2.roots⟩ B files := by
      rcases hparts : (jsSplitSlash it.path).dropLast with _ | ⟨p1, prest⟩
      · exact absurd hparts hparne
      · have hp1ne : p1 ≠ "" := by
          rw [goodPath, hparts] at hgoodit
          simpa using hgoodit
        have hp1sl : '/' ∉ p1.data := hsl p1 (by rw [hparts]; exact List.mem_cons_self _ _)
        have hlv1 : keyLevel p1 = 1 := keyLevel_no_slash hp1ne hp1sl
        have hlen : (folderSegs it.path).length = prest.length + 1 := by
          rw [folderSegs, hparts]
          rfl
        have hlenB : prest.length + 1 ≤ B := le_trans (by rw [hlen]) (le_trans
          (Nat.le_max_left _ 1) hB)
        obtain ⟨hinv1, hcp1, hpar1, hpres1, hfresh1, nr1, hroots1⟩ :=
          walkStep_spec ⟨st.map, st.roots, "", none⟩ p1 hp1sl hinv0
        have hcp1e : (walkStep ⟨st.map, st.roots, "", none⟩ p1).currentPath = p1 := by
          rw [hcp1]
          exact joinPathAcc_empty_left p1
        have hgs1 : goodStore ⟨(walkStep ⟨st.map, st.roots, "", none⟩ p1).map,
            (walkStep ⟨st.map, st.roots, "", none⟩ p1).roots⟩ B files := by
          by_cases hex : (findNode st.map p1).isSome
          · have hstep : walkStep ⟨st.map, st.roots, "", none⟩ p1 =
                ⟨st.map, st.roots, p1, some p1⟩ := by
              simp [walkStep, joinPathAcc_empty_left, hex]
            rw [hstep]
            exact hg
          · have hnonef : findNode st.map p1 = none := Option.not_isSome_iff_eq_none.mp hex
            have hstep : walkStep ⟨st.map, st.roots, "", none⟩ p1 =
                ⟨st.map ++ [(p1, ⟨p1, p1, [], [], [], false⟩)], st.roots ++ [p1],
                  p1, some p1⟩ := by
              simp [walkStep, joinPathAcc_empty_left, hnonef]
            rw [hstep]
            obtain ⟨g1, g2, g3, g4, g5, g6, g7, g8⟩ := hg
            have hm1 : ∀ x, findNode (st.map ++ [(p1, ⟨p1, p1, [], [], [], false⟩)]) x =
                if x = p1 then some ⟨p1, p1, [], [], [], false⟩ else findNode st.map x := by
              intro x
              rw [findNode_append]
              by_cases hx : x = p1
              · subst hx
                rw [hnonef, if_pos rfl]
                simp [findNode]
              · rw [if_neg hx]
                rcases hfx : findNode st.map x with _ | nd
                · simp only [findNode, if_neg (Ne.symm hx)]
                · rfl
            have hkeys1 : mapKeys (st.map ++ [(p1, ⟨p1, p1, [], [], [], false⟩)]) =
                mapKeys st.map ++ [p1] := by
              rw [mapKeys_append]
              rfl
            have hrelmono : ∀ p q, childRel st.map p q →
                childRel (st.map ++ [(p1, ⟨p1, p1, [], [], [], false⟩)]) p q := by
              rintro p q ⟨nd, hf, hq⟩
              refine ⟨nd, ?_, hq⟩
              rw [hm1, if_neg ?_]
              · exact hf
              · intro h
                rw [h, hnonef] at hf
                cases hf
            have hlv1 : keyLevel p1 = 1 := keyLevel_no_slash hp1ne hp1sl
            refine ⟨?_, ?_, ?_, ?_, ?_, ?_, ?_, ?_⟩
            · intro nd h
              rw [show findNode (⟨st.map ++ [(p1, ⟨p1, p1, [], [], [], false⟩)],
                st.roots ++ [p1]⟩ : BuildState).map "" =
                findNode (st.map ++ [(p1, ⟨p1, p1, [], [], [], false⟩)]) "" from rfl,
                hm1, if_neg (Ne.symm hp1ne)] at h
              exact g1 nd h
            · intro k hk
              rw [show mapKeys (⟨st.map ++ [(p1, ⟨p1, p1, [], [], [], false⟩)],
                st.roots ++ [p1]⟩ : BuildState).map =
                mapKeys (st.map ++ [(p1, ⟨p1, p1, [], [], [], false⟩)]) from rfl,
                hkeys1] at hk
              rcases List.mem_append.mp hk with hk2 | hk2
              · exact g2 k hk2
              · rw [List.mem_singleton.mp hk2, hlv1]
                exact hB1
            · intro r hr
              rcases List.mem_append.mp hr with hr2 | hr2
              · exact g3 r hr2
              · rw [List.mem_singleton.mp hr2]
                exact hlv1
            · intro k hk
              rw [show mapKeys (⟨st.map ++ [(p1, ⟨p1, p1, [], [], [], false⟩)],
                st.roots ++ [p1]⟩ : BuildState).map =
                mapKeys (st.map ++ [(p1, ⟨p1, p1, [], [], [], false⟩)]) from rfl,
                hkeys1] at hk
              rcases List.mem_append.mp hk with hk2 | hk2
              · exact g4 k hk2
              · rw [List.mem_singleton.mp hk2]
                exact goodKey_no_slash hp1sl
            · intro k nd h hkne
              rw [show findNode (⟨st.map ++ [(p1, ⟨p1, p1, [], [], [], false⟩)],
                st.roots ++ [p1]⟩ : BuildState).map k =
                findNode (st.map ++ [(p1, ⟨p1, p1, [], [], [], false⟩)]) k from rfl,
                hm1] at h
              by_cases hx : k = p1
              · constructor
                · intro _
                  rw [hx]
                  exact List.mem_append_right _ (List.mem_cons_self _ _)
                · intro hl
                  exfalso
                  rw [hx, hlv1] at hl
                  omega
              · rw [if_neg hx] at h
                obtain ⟨h5a, h5b⟩ := g5 k nd h hkne
                exact ⟨fun hl => List.mem_append_left _ (h5a hl),
                  fun hl => hrelmono _ _ (h5b hl)⟩
            · intro h
              rw [show findNode (⟨st.map ++ [(p1, ⟨p1, p1, [], [], [], false⟩)],
                st.roots ++ [p1]⟩ : BuildState).map "" =
                findNode (st.map ++ [(p1, ⟨p1, p1, [], [], [], false⟩)]) "" from rfl,
                hm1, if_neg (Ne.symm hp1ne)] at h
              exact List.mem_append_left _ (g6 h)
            · intro k hk
              rw [show mapKeys (⟨st.map ++ [(p1, ⟨p1, p1, [], [], [], false⟩)],
                st.roots ++ [p1]⟩ : BuildState).map =
                mapKeys (st.map ++ [(p1, ⟨p1, p1, [], [], [], false⟩)]) from rfl,
                hkeys1] at hk
              rcases List.mem_append.mp hk with hk2 | hk2
              · exact g7 k hk2
              · rw [List.mem_singleton.mp hk2]
                refine Or.inr ⟨it, hit, 1, le_refl 1, ?_, ?_⟩
                · rw [folderSegs, hparts]
                  simp
                · rw [folderSegs, hparts]
                  rfl
            · intro k nd h
              rw [show findNode (⟨st.map ++ [(p1, ⟨p1, p1, [], [], [], false⟩)],
                st.roots ++ [p1]⟩ : BuildState).map k =
                findNode (st.map ++ [(p1, ⟨p1, p1, [], [], [], false⟩)]) k from rfl,
                hm1] at h
              by_cases hx : k = p1
              · rw [if_pos hx] at h
                have h2 := Option.some.inj h
                rw [← h2]
                show p1 = _
                rw [if_neg (hx ▸ hp1ne), hx, jsSplitSlash_of_no_slash p1 hp1sl]
                rfl
              · rw [if_neg hx] at h
                exact g8 k nd h
        have hwit1 : ∀ j, j ≤ prest.length → keyWitness files
            ((prest.take j).foldl joinPathAcc
              (walkStep ⟨st.map, st.roots, "", none⟩ p1).currentPath) := by
          intro j hj
          rw [hcp1e, foldl_joinPathAcc_of_ne _ _ hp1ne]
          refine Or.inr ⟨it, hit, j + 1, by omega, ?_, ?_⟩
          · rw [folderSegs, hparts]
            simp
            omega
          · rw [folderSegs, hparts, List.take_succ_cons]
        rw [hws2, hparts, List.foldl_cons]
        exact walk_good_aux prest (walkStep ⟨st.map, st.roots, "", none⟩ p1) B files
          (fun x hx => hsl x (by rw [hparts]; exact List.mem_cons_of_mem p1 hx))
          hinv1 hgs1 (by rw [hcp1e]; exact hp1ne)
          (by rw [hpar1, hcp1]) (by rw [hcp1e, hlv1]; omega) hwit1
    exact goodStore_update_payload ws2.map ws2.roots ws2.currentPath (addFileToNode it)
      (fun nd => rfl) (fun nd => rfl) hgs2

theorem goodStore_mono_B {st : BuildState} {B B2 : Nat} {files : List FileItem}
    (hg : goodStore st B files) (h : B ≤ B2) : goodStore st B2 files := by
  obtain ⟨g1, g2, g3, g4, g5, g6, g7, g8⟩ := hg
  exact ⟨g1, fun k hk => le_trans (g2 k hk) h, g3, g4, g5, g6, g7, g8⟩

theorem buildState_good (files : List FileItem)
    (hgood : ∀ it ∈ files, goodPath it.path = true) :
    goodStore (buildState files) (maxFolderSegsClamped files) files := by
  rw [buildState, maxFolderSegsClamped]
  suffices hgen : ∀ (fs : List FileItem) (st : BuildState) (B : Nat),
      (∀ it ∈ fs, goodPath it.path = true) → (∀ it ∈ fs, it ∈ files) →
      mapOK st.map → rootsRegistered st → goodStore st B files →
      goodStore (fs.foldl processFile st)
        (fs.foldl (fun acc it => max acc (max (folderSegs it.path).length 1)) B) files by
    refine hgen files ⟨[], []⟩ 0 hgood (fun it h => h) ?_ ?_ ?_
    · exact ⟨fun p nd h => (by cases h), fun p nd h => (by cases h), fun p nd h => (by cases h),
        fun p nd h => (by cases h), fun p nd h => (by cases h), fun p nd h => (by cases h),
        List.nodup_nil⟩
    · intro p hp
      cases hp
    · refine ⟨fun nd h => (by cases h), fun k hk => (by cases hk), fun r hr => (by cases hr),
        fun k hk => (by cases hk), fun k nd h => (by cases h), ?_, fun k hk => (by cases hk),
        fun k nd h => (by cases h)⟩
      intro h
      simp [findNode] at h
  intro fs
  induction fs with
  | nil =>
    intro st B _ _ _ _ hg
    exact hg
  | cons f rest ih =>
    intro st B hgoodfs hsub hok hroots hg
    rw [List.foldl_cons, List.foldl_cons]
    obtain ⟨hok2, hroots2⟩ := processFile_spec st f hok hroots
    refine ih (processFile st f) (max B (max (folderSegs f.path).length 1))
      (fun x hx => hgoodfs x (List.mem_cons_of_mem f hx))
      (fun x hx => hsub x (List.mem_cons_of_mem f hx)) hok2 hroots2 ?_
    exact processFile_good st f files (max B (max (folderSegs f.path).length 1)) hok hroots
      (hgoodfs f (List.mem_cons_self f rest)) (hsub f (List.mem_cons_self f rest))
      (goodStore_mono_B hg (Nat.le_max_left _ _)) (Nat.le_max_right _ _)

/-! ## Depth bounds through the store -/

theorem goodChild_level {m : FolderMap}
    (hok : mapOK m) (hroot : ∀ nd, findNode m "" = some nd → nd.childPaths = [])
    {p : String} {nd : NodeData} (hfind : findNode m p = some nd) :
    ∀ c ∈ nd.childPaths, keyLevel c = keyLevel p + 1 ∧ (findNode m c).isSome := by
  intro c hc
  by_cases hp : p = ""
  · exfalso
    rw [hp] at hfind
    rw [hroot nd hfind] at hc
    cases hc
  · obtain ⟨s, hsl, hce, _⟩ := hok.2.2.2.2.1 p nd hfind c hc
    refine ⟨?_, hok.2.2.2.1 p nd hfind c hc⟩
    rw [hce, joinPathAcc_of_ne s hp]
    exact keyLevel_append p s hp hsl

theorem materialize_depth_le {m : FolderMap} {B : Nat}
    (hok : mapOK m) (hroot : ∀ nd, findNode m "" = some nd → nd.childPaths = [])
    (hlev : ∀ k ∈ mapKeys m, keyLevel k ≤ B) :
    ∀ (fuel : Nat) (p : String) (nd : NodeData), findNode m p = some nd →
      keyLevel p + depthN (materialize m fuel p) ≤ B + 1 := by
  intro fuel
  induction fuel with
  | zero =>
    intro p nd hfind
    rw [show materialize m 0 p =
      .mk nd.name nd.path [] nd.videos (some nd.allFiles) nd.isExpanded from by
        simp [materialize, hfind]]
    rw [depthN, depthF]
    have := hlev p (mem_mapKeys_of_findNode hfind)
    omega
  | succ fuel ihf =>
    intro p nd hfind
    rw [show materialize m (fuel + 1) p =
      .mk nd.name nd.path (nd.childPaths.map (materialize m fuel)) nd.videos
        (some nd.allFiles) nd.isExpanded from by simp [materialize, hfind]]
    rw [depthN]
    have hkp := hlev p (mem_mapKeys_of_findNode hfind)
    have hch := goodChild_level hok hroot hfind
    have hgen : ∀ cs : List String,
        (∀ c ∈ cs, keyLevel c = keyLevel p + 1 ∧ (findNode m c).isSome) →
        depthF (cs.map (materialize m fuel)) + keyLevel p ≤ B := by
      intro cs hcs
      induction cs with
      | nil =>
        rw [List.map_nil, depthF]
        omega
      | cons c cs2 ihc =>
        rw [List.map_cons, depthF_cons]
        have h1 := hcs c (List.mem_cons_self _ _)
        obtain ⟨nd2, hnd2⟩ := Option.isSome_iff_exists.mp h1.2
        have h2 := ihf c nd2 hnd2
        rw [h1.1] at h2
        have h3 := ihc (fun x hx => hcs x (List.mem_cons_of_mem c hx))
        omega
    have := hgen nd.childPaths hch
    omega

theorem chainOK_append (m : FolderMap) :
    ∀ (ch : List String) (k1 k2 : String), chainOK m ch → ch.getLast? = some k1 →
      childRel m k1 k2 → (findNode m k2).isSome → chainOK m (ch ++ [k2])
  | [], k1, k2, _, hlast, _, _ => by cases hlast
  | [x], k1, k2, _, hlast, hrel, hreg => by
    have hx : x = k1 := by
      simp at hlast
      exact hlast
    show childRel m x k2 ∧ chainOK m [k2]
    exact ⟨hx ▸ hrel, hreg⟩
  | x :: y :: rest, k1, k2, hch, hlast, hrel, hreg => by
    have hch2 := chainOK_append m (y :: rest) k1 k2 hch.2
      (by rw [← hlast, List.getLast?_cons_cons]) hrel hreg
    exact ⟨hch.1, hch2⟩

theorem chain_depth (m : FolderMap) :
    ∀ (rest : List String) (k1 : String) (fuel : Nat), chainOK m (k1 :: rest) →
      rest.length ≤ fuel → rest.length + 1 ≤ depthN (materialize m fuel k1)
  | [], k1, fuel, _, _ => by
    simpa using depthN_pos (materialize m fuel k1)
  | k2 :: rest2, k1, fuel, hch, hlen => by
    have hrel : childRel m k1 k2 := hch.1
    have hch2 : chainOK m (k2 :: rest2) := hch.2
    obtain ⟨nd, hfind, hk2⟩ := hrel
    cases fuel with
    | zero => simp at hlen
    | succ fuel2 =>
      rw [show materialize m (fuel2 + 1) k1 =
        .mk nd.name nd.path (nd.childPaths.map (materialize m fuel2)) nd.videos
          (some nd.allFiles) nd.isExpanded from by simp [materialize, hfind]]
      rw [depthN]
      have h1 : depthN (materialize m fuel2 k2) ≤
          depthF (nd.childPaths.map (materialize m fuel2)) :=
        depthN_le_depthF_of_mem (List.mem_map_of_mem _ hk2)
      have h2 := chain_depth m rest2 k2 fuel2 hch2 (by simpa using hlen)
      simp only [List.length_cons]
      omega

theorem parent_facts {k : String} (hne : k ≠ "") (hgk : goodKey k) (hl : 2 ≤ keyLevel k) :
    parentPathOf k ≠ "" ∧ goodKey (parentPathOf k) ∧
    keyLevel (parentPathOf k) + 1 = keyLevel k ∧
    jsSplitSlash (parentPathOf k) = (jsSplitSlash k).dropLast := by
  rcases hsp : jsSplitSlash k with _ | ⟨h1, t1⟩
  · exact absurd hsp (jsSplitSlash_ne_nil k)
  · have hh1 : h1 ≠ "" := by
      have h2 := hgk hne
      rw [hsp] at h2
      exact h2
    rcases t1 with _ | ⟨x2, t2⟩
    · exfalso
      rw [keyLevel_of_ne hne, hsp] at hl
      simp at hl
    · have hdl : (jsSplitSlash k).dropLast = h1 :: (x2 :: t2).dropLast := by
        rw [hsp]
        rfl
      have hmem : ∀ x ∈ (jsSplitSlash k).dropLast, '/' ∉ x.data := fun x hx =>
        jsSplitSlash_no_slash k x ((List.dropLast_sublist _).subset hx)
      have hnn : (jsSplitSlash k).dropLast ≠ [] := by
        rw [hdl]
        exact List.cons_ne_nil _ _
      have hsp2 : jsSplitSlash (parentPathOf k) = (jsSplitSlash k).dropLast := by
        rw [parentPathOf]
        exact jsSplitSlash_joinSlash _ hnn hmem
      have hpne : parentPathOf k ≠ "" := by
        intro h
        rw [h, show jsSplitSlash "" = [""] from by decide, hdl] at hsp2
        injection hsp2 with ha
        exact hh1 ha.symm
      refine ⟨hpne, ?_, ?_, by rw [hsp2, hsp]⟩
      · intro _
        rw [hsp2, hdl]
        exact hh1
      · rw [keyLevel_of_ne hpne, hsp2, keyLevel_of_ne hne, List.length_dropLast, hsp]
        simp only [List.length_cons]
        omega

theorem nodup_length_le {ch l : List String} (hnd : ch.Nodup)
    (hsub : ∀ x ∈ ch, x ∈ l) : ch.length ≤ l.length := by
  calc ch.length = ch.toFinset.card := (List.toFinset_card_of_nodup hnd).symm
    _ ≤ l.toFinset.card := Finset.card_le_card
        (fun x hx => List.mem_toFinset.mpr (hsub x (List.mem_toFinset.mp hx)))
    _ ≤ l.length := l.toFinset_card_le

theorem chain_exists {m : FolderMap} {roots : List String}
    (hg5 : ∀ k nd, findNode m k = some nd → k ≠ "" →
      (keyLevel k = 1 → k ∈ roots) ∧ (2 ≤ keyLevel k → childRel m (parentPathOf k) k)) :
    ∀ (n : Nat) (k : String), (findNode m k).isSome → k ≠ "" → goodKey k →
      keyLevel k = n + 1 →
      ∃ ch : List String, ∃ r, ∃ rest, ch = r :: rest ∧ r ∈ roots ∧
        ch.getLast? = some k ∧ chainOK m ch ∧ ch.length = n + 1 ∧ ch.Nodup ∧
        (∀ x ∈ ch, x ∈ mapKeys m ∧ keyLevel x ≤ n + 1) := by
  intro n
  induction n with
  | zero =>
    intro k hreg hne _ hlv
    obtain ⟨nd, hnd⟩ := Option.isSome_iff_exists.mp hreg
    refine ⟨[k], k, [], rfl, (hg5 k nd hnd hne).1 hlv, rfl, hreg, rfl,
      List.nodup_singleton k, ?_⟩
    intro x hx
    rw [List.mem_singleton.mp hx]
    exact ⟨mem_mapKeys_of_findNode hnd, le_of_eq hlv⟩
  | succ n ihn =>
    intro k hreg hne hgk hlv
    obtain ⟨nd, hnd⟩ := Option.isSome_iff_exists.mp hreg
    have hl2 : 2 ≤ keyLevel k := by omega
    obtain ⟨pnd, hpnd, hkc⟩ := (hg5 k nd hnd hne).2 hl2
    obtain ⟨hpne, hpgk, hplv, _⟩ := parent_facts hne hgk hl2
    have hplv2 : keyLevel (parentPathOf k) = n + 1 := by omega
    obtain ⟨ch, r, rest, hche, hr, hlast, hchOK, hlen, hnodup, hmem⟩ :=
      ihn (parentPathOf k) (by rw [hpnd]; rfl) hpne hpgk hplv2
    refine ⟨ch ++ [k], r, rest ++ [k], by rw [hche]; rfl, hr, ?_, ?_, ?_, ?_, ?_⟩
    · rw [List.getLast?_concat]
    · exact chainOK_append m ch (parentPathOf k) k hchOK hlast ⟨pnd, hpnd, hkc⟩ hreg
    · rw [List.length_append, hlen]
      rfl
    · refine nodup_append_singleton hnodup ?_
      intro hkc2
      obtain ⟨_, hlvx⟩ := hmem k hkc2
      omega
    · intro x hx
      rcases List.mem_append.mp hx with hx2 | hx2
      · obtain ⟨hmk, hlvx⟩ := hmem x hx2
        exact ⟨hmk, by omega⟩
      · rw [List.mem_singleton.mp hx2]
        exact ⟨mem_mapKeys_of_findNode hnd, le_of_eq hlv⟩

theorem maxFolderSegsClamped_le {files : List FileItem} {D : Nat}
    (h : ∀ it ∈ files, max (folderSegs it.path).length 1 ≤ D) :
    maxFolderSegsClamped files ≤ D := by
  rw [maxFolderSegsClamped]
  have hgen : ∀ (fs : List FileItem) (acc : Nat), acc ≤ D →
      (∀ it ∈ fs, max (folderSegs it.path).length 1 ≤ D) →
      fs.foldl (fun acc it => max acc (max (folderSegs it.path).length 1)) acc ≤ D := by
    intro fs
    induction fs with
    | nil =>
      intro acc ha _
      exact ha
    | cons f rest ihf =>
      intro acc ha hf
      rw [List.foldl_cons]
      refine ihf _ ?_ (fun x hx => hf x (List.mem_cons_of_mem f hx))
      have := hf f (List.mem_cons_self _ _)
      omega
  exact hgen files 0 (Nat.zero_le D) h

theorem attachKey_facts {path : String} (hgood : goodPath path = true)
    (hne : folderSegs path ≠ []) :
    jsSplitSlash (attachKey path) = folderSegs path ∧ attachKey path ≠ "" ∧
    goodKey (attachKey path) ∧ keyLevel (attachKey path) = (folderSegs path).length := by
  have hj : attachKey path = joinSlash (folderSegs path) := by
    rw [attachKey_eq_parentPathOf hgood, parentPathOf, folderSegs]
  have hmem : ∀ x ∈ folderSegs path, '/' ∉ x.data := fun x hx =>
    jsSplitSlash_no_slash path x ((List.dropLast_sublist _).subset hx)
  have hsp : jsSplitSlash (attachKey path) = folderSegs path := by
    rw [hj]
    exact jsSplitSlash_joinSlash _ hne hmem
  rcases hfs : folderSegs path with _ | ⟨s1, srest⟩
  · exact absurd hfs hne
  · have hs1 : s1 ≠ "" := by
      rw [goodPath] at hgood
      rw [folderSegs] at hfs
      rw [hfs] at hgood
      simpa using hgood
    have hane : attachKey path ≠ "" := by
      intro h
      rw [h, show jsSplitSlash "" = [""] from by decide, hfs] at hsp
      injection hsp with ha
      exact hs1 ha.symm
    refine ⟨by rw [hsp, hfs], hane, ?_, ?_⟩
    · intro _
      rw [hsp, hfs]
      exact hs1
    · rw [keyLevel_of_ne hane, hsp, hfs]

/-! ## Claim C8: acyclicity and the depth of the built forest -/

/-- C8 (amended): the child linkage of the builder store is acyclic and
gives every folder at most one parent, for every batch; and for batches of
normalized paths the depth of the built forest is the maximum folder
segment count clamped below at one per descriptor (a descriptor without
folder segments still materializes the root sentinel folder of depth
one), rather than the raw maximum segment count of the original claim. -/
theorem build_acyclic_depth (files : List FileItem) :
    (∀ p, ¬ Relation.TransGen (childRel (buildState files).map) p p) ∧
    (∀ p1 p2 q, childRel (buildState files).map p1 q →
      childRel (buildState files).map p2 q → p1 = p2) ∧
    ((∀ it ∈ files, goodPath it.path = true) →
      depthF (buildCompleteFolderTree files) = maxFolderSegsClamped files) := by
  obtain ⟨hok, hroots⟩ := buildState_inv files
  refine ⟨?_, ?_, ?_⟩
  · intro p hcyc
    exact absurd (transGen_childRel_measure hok hcyc) (lt_irrefl _)
  · intro p1 p2 q h1 h2
    exact childRel_parent_unique hok h1 h2
  · intro hgood
    obtain ⟨g1, g2, g3, g4, g5, g6, g7, g8⟩ := buildState_good files hgood
    rw [buildTree_depth]
    apply le_antisymm
    · apply depthF_le
      intro x hx
      obtain ⟨r, hr, rfl⟩ := List.mem_map.mp hx
      obtain ⟨nd, hnd⟩ := Option.isSome_iff_exists.mp (hroots r hr)
      have h := materialize_depth_le hok g1 g2 (buildState files).map.length r nd hnd
      have hlv := g3 r hr
      omega
    · apply maxFolderSegsClamped_le
      intro it hit
      rcases hfs : folderSegs it.path with _ | ⟨s1, srest⟩
      · have hkey : attachKey it.path = "" := by
          rw [attachKey, show (jsSplitSlash it.path).dropLast = [] from hfs]
          rfl
        have hreg := (buildState_files files).2 it hit
        rw [hkey] at hreg
        have hrmem := g6 hreg
        have hd1 := depthN_le_depthF_of_mem (List.mem_map_of_mem
          (materialize (buildState files).map (buildState files).map.length) hrmem)
        have hd2 := depthN_pos
          (materialize (buildState files).map (buildState files).map.length "")
        simp only [List.length_nil]
        omega
      · have hgoodit := hgood it hit
        have hne : folderSegs it.path ≠ [] := by
          rw [hfs]
          exact List.cons_ne_nil _ _
        obtain ⟨hsp, hane, hagk, halv⟩ := attachKey_facts hgoodit hne
        have hreg := (buildState_files files).2 it hit
        have hplen : (folderSegs it.path).length = srest.length + 1 := by
          rw [hfs]
          rfl
        have hlvn : keyLevel (attachKey it.path) =
            ((folderSegs it.path).length - 1) + 1 := by
          rw [halv]
          omega
        obtain ⟨ch, r, rest, hche, hr, hlast, hchOK, hlen, hnodup, hmem⟩ :=
          chain_exists g5 ((folderSegs it.path).length - 1) (attachKey it.path)
            hreg hane hagk hlvn
        have hchl : ch.length = rest.length + 1 := by
          rw [hche]
          rfl
        have hchle : ch.length ≤ (buildState files).map.length := by
          have hkl : (mapKeys (buildState files).map).length =
              (buildState files).map.length := List.length_map _ _
          have := nodup_length_le hnodup (fun x hx => (hmem x hx).1)
          omega
        rw [hche] at hchOK
        have hdep := chain_depth (buildState files).map rest r
          (buildState files).map.length hchOK (by omega)
        have hd1 := depthN_le_depthF_of_mem (List.mem_map_of_mem
          (materialize (buildState files).map (buildState files).map.length) hr)
        simp only [List.length_cons]
        omega

/-- C8 counterexample: a descriptor whose path has no folder segments still
creates the root sentinel folder, so the forest depth is one while the
maximum folder segment count of the batch is zero. -/
theorem build_depth_counterexample :
    depthF (buildCompleteFolderTree [⟨some 0, "x.mp4", "x.mp4", 1, true⟩]) = 1 ∧
    maxFolderSegs [⟨some 0, "x.mp4", "x.mp4", 1, true⟩] = 0 := by
  constructor
  · have heval : buildCompleteFolderTree [⟨some 0, "x.mp4", "x.mp4", 1, true⟩] =
        [FolderNode.mk "根目录" "" [] [⟨some 0, "x.mp4", "x.mp4", 1⟩]
          (some [⟨some 0, "x.mp4", "x.mp4", 1, true⟩]) true] := by
      simp only [buildCompleteFolderTree]
      rw [show List.map
          (materialize (buildState [⟨some 0, "x.mp4", "x.mp4", 1, true⟩]).map
            (buildState [⟨some 0, "x.mp4", "x.mp4", 1, true⟩]).map.length)
          (buildState [⟨some 0, "x.mp4", "x.mp4", 1, true⟩]).roots =
        [FolderNode.mk "根目录" "" [] [⟨some 0, "x.mp4", "x.mp4", 1⟩]
          (some [⟨some 0, "x.mp4", "x.mp4", 1, true⟩]) true] from by rfl]
      simp [sortFolderContents_eq, sortFilesByNumber]
    rw [heval, depthF_cons, depthF, depthN, depthF]
    omega
  · decide

/-- Witness for the amended C8 at a concrete normalized batch of depth two. -/
theorem build_acyclic_depth_witness :
    (¬ Relation.TransGen (childRel (buildState
      [⟨some 0, "a.mp4", "A/B/a.mp4", 1, true⟩]).map) "A" "A") ∧
    depthF (buildCompleteFolderTree [⟨some 0, "a.mp4", "A/B/a.mp4", 1, true⟩]) =
      maxFolderSegsClamped [⟨some 0, "a.mp4", "A/B/a.mp4", 1, true⟩] :=
  ⟨(build_acyclic_depth [⟨some 0, "a.mp4", "A/B/a.mp4", 1, true⟩]).1 "A",
    (build_acyclic_depth [⟨some 0, "a.mp4", "A/B/a.mp4", 1, true⟩]).2.2 (by decide)⟩

/-! ## Permutation invariance of the build (claim C6) -/

theorem keyWitness_perm {b1 b2 : List FileItem} (hperm : List.Perm b1 b2) {k : String}
    (h : keyWitness b1 k) : keyWitness b2 k := by
  rcases h with ⟨hk, it, hit, hsegs⟩ | ⟨it, hit, j, hj1, hjl, hk⟩
  · exact Or.inl ⟨hk, it, hperm.subset hit, hsegs⟩
  · exact Or.inr ⟨it, hperm.subset hit, j, hj1, hjl, hk⟩

theorem ancestor_registered {m : FolderMap} {roots : List String}
    (hg5 : ∀ k nd, findNode m k = some nd → k ≠ "" →
      (keyLevel k = 1 → k ∈ roots) ∧ (2 ≤ keyLevel k → childRel m (parentPathOf k) k)) :
    ∀ (d : Nat) (k : String), (findNode m k).isSome → k ≠ "" → goodKey k →
      ∀ j, 1 ≤ j → j + d = keyLevel k →
      (findNode m (joinSlash ((jsSplitSlash k).take j))).isSome := by
  intro d
  induction d with
  | zero =>
    intro k hreg hne _ j _ hjd
    have htake : (jsSplitSlash k).take j = jsSplitSlash k := by
      apply List.take_of_length_le
      rw [← keyLevel_of_ne hne]
      omega
    rw [htake, joinSlash_jsSplitSlash]
    exact hreg
  | succ d ihd =>
    intro k hreg hne hgk j hj1 hjd
    have hl2 : 2 ≤ keyLevel k := by omega
    obtain ⟨nd, hnd⟩ := Option.isSome_iff_exists.mp hreg
    obtain ⟨pnd, hpnd, _⟩ := (hg5 k nd hnd hne).2 hl2
    obtain ⟨hpne, hpgk, hplv, hpsp⟩ := parent_facts hne hgk hl2
    have hlen : (jsSplitSlash k).length = keyLevel k := (keyLevel_of_ne hne).symm
    have htake : (jsSplitSlash (parentPathOf k)).take j = (jsSplitSlash k).take j := by
      rw [hpsp, List.dropLast_eq_take, List.take_take]
      congr 1
      omega
    rw [← htake]
    exact ihd (parentPathOf k) (by rw [hpnd]; rfl) hpne hpgk j hj1 (by omega)

theorem prefix_key_registered (files : List FileItem)
    (hgood : ∀ it ∈ files, goodPath it.path = true) :
    ∀ it ∈ files, ∀ j, 1 ≤ j → j ≤ (folderSegs it.path).length →
      (findNode (buildState files).map (joinSlash ((folderSegs it.path).take j))).isSome := by
  intro it hit j hj1 hjl
  obtain ⟨g1, g2, g3, g4, g5, g6, g7, g8⟩ := buildState_good files hgood
  have hne : folderSegs it.path ≠ [] := by
    intro h
    rw [h] at hjl
    simp at hjl
    omega
  obtain ⟨hsp, hane, hagk, halv⟩ := attachKey_facts (hgood it hit) hne
  have hreg := (buildState_files files).2 it hit
  have hanc := ancestor_registered g5 ((folderSegs it.path).length - j) (attachKey it.path)
    hreg hane hagk j hj1 (by rw [halv]; omega)
  rw [hsp] at hanc
  exact hanc

theorem keyWitness_registered (files : List FileItem)
    (hgood : ∀ it ∈ files, goodPath it.path = true) {k : String}
    (h : keyWitness files k) : (findNode (buildState files).map k).isSome := by
  rcases h with ⟨hk, it, hit, hsegs⟩ | ⟨it, hit, j, hj1, hjl, hk⟩
  · have hkey : attachKey it.path = "" := by
      rw [attachKey, show (jsSplitSlash it.path).dropLast = [] from hsegs]
      rfl
    have hreg := (buildState_files files).2 it hit
    rw [hkey] at hreg
    rw [hk]
    exact hreg
  · subst hk
    exact prefix_key_registered files hgood it hit j hj1 hjl

theorem childRel_char {files : List FileItem}
    (hgood : ∀ it ∈ files, goodPath it.path = true) (p q : String) :
    childRel (buildState files).map p q ↔
      ((findNode (buildState files).map q).isSome ∧ q ≠ "" ∧ 2 ≤ keyLevel q ∧
        p = parentPathOf q) := by
  obtain ⟨hok, hroots⟩ := buildState_inv files
  obtain ⟨g1, g2, g3, g4, g5, g6, g7, g8⟩ := buildState_good files hgood
  constructor
  · rintro ⟨nd, hf, hq⟩
    have hreg : (findNode (buildState files).map q).isSome :=
      hok.2.2.2.1 p nd hf q hq
    obtain ⟨s, hsl, hqe, hne2⟩ := hok.2.2.2.2.1 p nd hf q hq
    by_cases hp : p = ""
    · exfalso
      rw [hp] at hf
      rw [g1 nd hf] at hq
      cases hq
    · rw [joinPathAcc_of_ne s hp] at hqe
      subst hqe
      refine ⟨hreg, append_slash_ne_empty p s, ?_, (parentPathOf_append p s hsl).symm⟩
      rw [keyLevel_append p s hp hsl]
      have := keyLevel_pos p
      omega
  · rintro ⟨hreg, hne, hl2, rfl⟩
    obtain ⟨nd, hnd⟩ := Option.isSome_iff_exists.mp hreg
    exact (g5 q nd hnd hne).2 hl2

theorem roots_char {files : List FileItem}
    (hgood : ∀ it ∈ files, goodPath it.path = true) (r : String) :
    r ∈ (buildState files).roots ↔
      ((findNode (buildState files).map r).isSome ∧ keyLevel r = 1) := by
  obtain ⟨hok, hroots⟩ := buildState_inv files
  obtain ⟨g1, g2, g3, g4, g5, g6, g7, g8⟩ := buildState_good files hgood
  constructor
  · intro hr
    exact ⟨hroots r hr, g3 r hr⟩
  · rintro ⟨hreg, hlv⟩
    by_cases hre : r = ""
    · rw [hre]
      rw [hre] at hreg
      exact g6 hreg
    · obtain ⟨nd, hnd⟩ := Option.isSome_iff_exists.mp hreg
      exact (g5 r nd hnd hre).1 hlv

theorem keys_perm_iff {b1 b2 : List FileItem} (hperm : List.Perm b1 b2)
    (hgood1 : ∀ it ∈ b1, goodPath it.path = true)
    (hgood2 : ∀ it ∈ b2, goodPath it.path = true) (k : String) :
    (findNode (buildState b1).map k).isSome ↔ (findNode (buildState b2).map k).isSome := by
  obtain ⟨g1a, g2a, g3a, g4a, g5a, g6a, g7a, g8a⟩ := buildState_good b1 hgood1
  obtain ⟨g1b, g2b, g3b, g4b, g5b, g6b, g7b, g8b⟩ := buildState_good b2 hgood2
  constructor
  · intro h
    exact keyWitness_registered b2 hgood2
      (keyWitness_perm hperm (g7a k ((findNode_isSome_iff _ _).mp h)))
  · intro h
    exact keyWitness_registered b1 hgood1
      (keyWitness_perm hperm.symm (g7b k ((findNode_isSome_iff _ _).mp h)))

/-- C6 (amended): over batches of normalized paths, permuting the batch
leaves the built object graph unchanged up to order: the same folder keys
are registered, the root list and every children list hold the same
folders, the parent-child relation is identical, and every folder carries
the same name and the same files and videos up to order; the materialized
forests themselves can still differ in sibling order because the natural
sort is stable and leaves tied keys in arrival order. -/
theorem build_perm_invariant (b1 b2 : List FileItem) (hperm : List.Perm b1 b2)
    (hgood : ∀ it ∈ b1, goodPath it.path = true) :
    (∀ k, (findNode (buildState b1).map k).isSome ↔
      (findNode (buildState b2).map k).isSome) ∧
    (∀ r, r ∈ (buildState b1).roots ↔ r ∈ (buildState b2).roots) ∧
    (∀ p q, childRel (buildState b1).map p q ↔ childRel (buildState b2).map p q) ∧
    (∀ k nd1 nd2, findNode (buildState b1).map k = some nd1 →
      findNode (buildState b2).map k = some nd2 →
      nd1.name = nd2.name ∧ List.Perm nd1.allFiles nd2.allFiles ∧
      List.Perm nd1.videos nd2.videos ∧ List.Perm nd1.childPaths nd2.childPaths) := by
  have hgood2 : ∀ it ∈ b2, goodPath it.path = true :=
    fun it h => hgood it (hperm.symm.subset h)
  obtain ⟨hok1, hroots1⟩ := buildState_inv b1
  obtain ⟨hok2, hroots2⟩ := buildState_inv b2
  have hkeys := keys_perm_iff hperm hgood hgood2
  have hrel : ∀ p q, childRel (buildState b1).map p q ↔
      childRel (buildState b2).map p q := by
    intro p q
    rw [childRel_char hgood, childRel_char hgood2, hkeys q]
  refine ⟨hkeys, ?_, hrel, ?_⟩
  · intro r
    rw [roots_char hgood, roots_char hgood2, hkeys r]
  · intro k nd1 nd2 h1 h2
    obtain ⟨g1a, g2a, g3a, g4a, g5a, g6a, g7a, g8a⟩ := buildState_good b1 hgood
    obtain ⟨g1b, g2b, g3b, g4b, g5b, g6b, g7b, g8b⟩ := buildState_good b2 hgood2
    have hfiles : List.Perm nd1.allFiles nd2.allFiles := by
      rw [(buildState_files b1).1 k nd1 h1, (buildState_files b2).1 k nd2 h2]
      exact hperm.filter _
    refine ⟨?_, hfiles, ?_, ?_⟩
    · rw [g8a k nd1 h1, g8b k nd2 h2]
    · rw [hok1.2.1 k nd1 h1, hok2.2.1 k nd2 h2]
      exact (hfiles.filter _).map _
    · have hmemiff : ∀ c, c ∈ nd1.childPaths ↔ c ∈ nd2.childPaths := by
        intro c
        constructor
        · intro hc
          obtain ⟨nd, hf, hcc⟩ := (hrel k c).mp ⟨nd1, h1, hc⟩
          rw [h2] at hf
          rw [Option.some.inj hf]
          exact hcc
        · intro hc
          obtain ⟨nd, hf, hcc⟩ := (hrel k c).mpr ⟨nd2, h2, hc⟩
          rw [h1] at hf
          rw [Option.some.inj hf]
          exact hcc
      have hnodup1 : nd1.childPaths.Nodup := hok1.2.2.2.2.2.1 k nd1 h1
      have hnodup2 : nd2.childPaths.Nodup := hok2.2.2.2.2.2.1 k nd2 h2
      exact (List.perm_ext_iff_of_nodup hnodup1 hnodup2).mpr hmemiff

/-- C6 counterexample: the folder names 1a and 1b both extract the key 1,
so the root sort leaves them tied in arrival order and the two builds over
permuted batches return forests with different sibling orders. -/
theorem build_perm_counterexample :
    List.Perm
      ([⟨some 0, "x.mp4", "1a/x.mp4", 1, true⟩,
        ⟨some 1, "y.mp4", "1b/y.mp4", 1, true⟩] : List FileItem)
      [⟨some 1, "y.mp4", "1b/y.mp4", 1, true⟩, ⟨some 0, "x.mp4", "1a/x.mp4", 1, true⟩] ∧
    (buildCompleteFolderTree
      [⟨some 0, "x.mp4", "1a/x.mp4", 1, true⟩,
        ⟨some 1, "y.mp4", "1b/y.mp4", 1, true⟩]).map FolderNode.name ≠
    (buildCompleteFolderTree
      [⟨some 1, "y.mp4", "1b/y.mp4", 1, true⟩,
        ⟨some 0, "x.mp4", "1a/x.mp4", 1, true⟩]).map FolderNode.name := by
  constructor
  · exact List.Perm.swap _ _ _
  · have h1 : buildCompleteFolderTree
        [⟨some 0, "x.mp4", "1a/x.mp4", 1, true⟩,
          ⟨some 1, "y.mp4", "1b/y.mp4", 1, true⟩] =
        [FolderNode.mk "1a" "1a" [] [⟨some 0, "x.mp4", "1a/x.mp4", 1⟩]
          (some [⟨some 0, "x.mp4", "1a/x.mp4", 1, true⟩]) false,
        FolderNode.mk "1b" "1b" [] [⟨some 1, "y.mp4", "1b/y.mp4", 1⟩]
          (some [⟨some 1, "y.mp4", "1b/y.mp4", 1, true⟩]) false] := by
      simp only [buildCompleteFolderTree]
      rw [show List.map
          (materialize (buildState [⟨some 0, "x.mp4", "1a/x.mp4", 1, true⟩,
              ⟨some 1, "y.mp4", "1b/y.mp4", 1, true⟩]).map
            (buildState [⟨some 0, "x.mp4", "1a/x.mp4", 1, true⟩,
              ⟨some 1, "y.mp4", "1b/y.mp4", 1, true⟩]).map.length)
          (buildState [⟨some 0, "x.mp4", "1a/x.mp4", 1, true⟩,
              ⟨some 1, "y.mp4", "1b/y.mp4", 1, true⟩]).roots =
        [FolderNode.mk "1a" "1a" [] [⟨some 0, "x.mp4", "1a/x.mp4", 1⟩]
          (some [⟨some 0, "x.mp4", "1a/x.mp4", 1, true⟩]) false,
        FolderNode.mk "1b" "1b" [] [⟨some 1, "y.mp4", "1b/y.mp4", 1⟩]
          (some [⟨some 1, "y.mp4", "1b/y.mp4", 1, true⟩]) false] from by rfl]
      simp [sortFolderContents_eq, sortFilesByNumber,
        List.mergeSort, List.splitInTwo, List.splitAt, List.splitAt.go, List.merge,
        show fileLE FolderNode.name
          (FolderNode.mk "1a" "1a" [] [⟨some 0, "x.mp4", "1a/x.mp4", 1⟩]
            (some [⟨some 0, "x.mp4", "1a/x.mp4", 1, true⟩]) false)
          (FolderNode.mk "1b" "1b" [] [⟨some 1, "y.mp4", "1b/y.mp4", 1⟩]
            (some [⟨some 1, "y.mp4", "1b/y.mp4", 1, true⟩]) false) = true from by decide]
    have h2 : buildCompleteFolderTree
        [⟨some 1, "y.mp4", "1b/y.mp4", 1, true⟩,
          ⟨some 0, "x.mp4", "1a/x.mp4", 1, true⟩] =
        [FolderNode.mk "1b" "1b" [] [⟨some 1, "y.mp4", "1b/y.mp4", 1⟩]
          (some [⟨some 1, "y.mp4", "1b/y.mp4", 1, true⟩]) false,
        FolderNode.mk "1a" "1a" [] [⟨some 0, "x.mp4", "1a/x.mp4", 1⟩]
          (some [⟨some 0, "x.mp4", "1a/x.mp4", 1, true⟩]) false] := by
      simp only [buildCompleteFolderTree]
      rw [show List.map
          (materialize (buildState [⟨some 1, "y.mp4", "1b/y.mp4", 1, true⟩,
              ⟨some 0, "x.mp4", "1a/x.mp4", 1, true⟩]).map
            (buildState [⟨some 1, "y.mp4", "1b/y.mp4", 1, true⟩,
              ⟨some 0, "x.mp4", "1a/x.mp4", 1, true⟩]).map.length)
          (buildState [⟨some 1, "y.mp4", "1b/y.mp4", 1, true⟩,
              ⟨some 0, "x.mp4", "1a/x.mp4", 1, true⟩]).roots =
        [FolderNode.mk "1b" "1b" [] [⟨some 1, "y.mp4", "1b/y.mp4", 1⟩]
          (some [⟨some 1, "y.mp4", "1b/y.mp4", 1, true⟩]) false,
        FolderNode.mk "1a" "1a" [] [⟨some 0, "x.mp4", "1a/x.mp4", 1⟩]
          (some [⟨some 0, "x.mp4", "1a/x.mp4", 1, true⟩]) false] from by rfl]
      simp [sortFolderContents_eq, sortFilesByNumber,
        List.mergeSort, List.splitInTwo, List.splitAt, List.splitAt.go, List.merge,
        show fileLE FolderNode.name
          (FolderNode.mk "1b" "1b" [] [⟨some 1, "y.mp4", "1b/y.mp4", 1⟩]
            (some [⟨some 1, "y.mp4", "1b/y.mp4", 1, true⟩]) false)
          (FolderNode.mk "1a" "1a" [] [⟨some 0, "x.mp4", "1a/x.mp4", 1⟩]
            (some [⟨some 0, "x.mp4", "1a/x.mp4", 1, true⟩]) false) = true from by decide]
    rw [h1, h2]
    decide

/-- Witness for the amended C6 at a concrete two-descriptor batch and its
transposition. -/
theorem build_perm_invariant_witness :
    "A" ∈ (buildState [⟨some 0, "a.mp4", "A/a.mp4", 1, true⟩,
        ⟨some 1, "b.mp4", "B/b.mp4", 1, true⟩]).roots ↔
    "A" ∈ (buildState [⟨some 1, "b.mp4", "B/b.mp4", 1, true⟩,
        ⟨some 0, "a.mp4", "A/a.mp4", 1, true⟩]).roots :=
  (build_perm_invariant
    [⟨some 0, "a.mp4", "A/a.mp4", 1, true⟩, ⟨some 1, "b.mp4", "B/b.mp4", 1, true⟩]
    [⟨some 1, "b.mp4", "B/b.mp4", 1, true⟩, ⟨some 0, "a.mp4", "A/a.mp4", 1, true⟩]
    (List.Perm.swap _ _ _) (by decide)).2.1 "A"
